import Mathlib

/-!
Verification of the workflow execution engine of the offensive-platform
repository: a shallow embedding of the scheduler loop
(`app/workflows/engine.py`), the circular-dependency validator
(`app/workflows/schemas.py`), the merge/deduplication and artifact-saving
helpers, the parameter resolver, and the generic tool-adapter `execute`
(`app/tools/base.py` and `platform-app/app/tools/base.py`), together with
proofs and refutations of the specification claims about them.
-/

/-- Dynamic (JSON-like) Python values: the engine passes heterogeneous
dicts and lists between tasks.  `vdict` keeps insertion order, like a
Python `dict`. -/
inductive Val where
  | vnull : Val
  | vbool : Bool → Val
  | vnum : Int → Val
  | vstr : String → Val
  | vlist : List Val → Val
  | vdict : List (String × Val) → Val

namespace Val

mutual

/-- Structural (Python `==`) equality on dynamic values. -/
def beq : Val → Val → Bool
  | .vnull, .vnull => true
  | .vbool a, .vbool b => a == b
  | .vnum a, .vnum b => a == b
  | .vstr a, .vstr b => a == b
  | .vlist a, .vlist b => beqList a b
  | .vdict a, .vdict b => beqDict a b
  | _, _ => false

def beqList : List Val → List Val → Bool
  | [], [] => true
  | a :: as, b :: bs => beq a b && beqList as bs
  | _, _ => false

def beqDict : List (String × Val) → List (String × Val) → Bool
  | [], [] => true
  | (k, a) :: as, (l, b) :: bs => k == l && beq a b && beqDict as bs
  | _, _ => false

end

theorem beq_sound : ∀ (n : Nat) (a b : Val), sizeOf a ≤ n → (beq a b = true ↔ a = b)
  | 0, a, _, h => by cases a <;> simp at h
  | n + 1, a, b, h => by
    cases a <;> cases b <;> simp only [beq] <;> try simp
    case vlist.vlist xs ys =>
      have hxs : sizeOf xs ≤ n := by
        have := h; simp at this; omega
      clear h
      induction xs generalizing ys with
      | nil => cases ys <;> simp [beqList]
      | cons x xs ih =>
        cases ys with
        | nil => simp [beqList]
        | cons y ys =>
          have hx : sizeOf x ≤ n := by simp at hxs; omega
          have hrest : sizeOf xs ≤ n := by simp at hxs; omega
          simp only [beqList, Bool.and_eq_true]
          rw [beq_sound n x y hx]
          constructor
          · rintro ⟨h1, h2⟩
            have := (ih ys hrest).mp h2
            simp [h1, this]
          · intro hcons
            injection hcons with h1 h2
            exact ⟨h1, (ih ys hrest).mpr h2⟩
    case vdict.vdict xs ys =>
      have hxs : sizeOf xs ≤ n := by
        have := h; simp at this; omega
      clear h
      induction xs generalizing ys with
      | nil => cases ys <;> simp [beqDict]
      | cons x xs ih =>
        cases ys with
        | nil => simp [beqDict]
        | cons y ys =>
          obtain ⟨k, v⟩ := x
          obtain ⟨l, w⟩ := y
          have hx : sizeOf v ≤ n := by simp at hxs; omega
          have hrest : sizeOf xs ≤ n := by simp at hxs; omega
          simp only [beqDict, Bool.and_eq_true]
          rw [beq_sound n v w hx]
          constructor
          · rintro ⟨⟨h0, h1⟩, h2⟩
            have := (ih ys hrest).mp h2
            simp_all
          · intro hcons
            injection hcons with h1 h2
            injection h1 with h1a h1b
            exact ⟨⟨by simp [h1a], h1b⟩, (ih ys hrest).mpr h2⟩

instance decEq : DecidableEq Val := fun a b =>
  decidable_of_iff (beq a b = true) (beq_sound (sizeOf a) a b (Nat.le_refl _))

end Val

example : (Val.vstr "a") ≠ Val.vnull := by decide
example : (Val.vlist [.vstr "a", .vnull]) = (Val.vlist [.vstr "a", .vnull]) := by decide

/-- Python truthiness (`if not key:`). -/
def Val.truthy : Val → Bool
  | .vnull => false
  | .vbool b => b
  | .vnum n => n != 0
  | .vstr s => s != ""
  | .vlist l => !l.isEmpty
  | .vdict d => !d.isEmpty

/-- Lookup in an insertion-ordered association list, as Python `d[k]` /
`d.get(k)` (first matching key; Python dicts never hold a key twice). -/
def alistGet {α β : Type} [BEq α] (d : List (α × β)) (k : α) : Option β :=
  (d.find? (fun p => p.1 == k)).map (fun p => p.2)

/-- Python `k in d`. -/
def alistHasKey {α β : Type} [BEq α] (d : List (α × β)) (k : α) : Bool :=
  (d.find? (fun p => p.1 == k)).isSome

/-- Python `d[k] = v`: overwrite in place if the key exists (keeping its
position), otherwise append at the end. -/
def alistSet {α β : Type} [BEq α] : List (α × β) → α → β → List (α × β)
  | [], k, v => [(k, v)]
  | (k1, v1) :: rest, k, v =>
      if k1 == k then (k1, v) :: rest else (k1, v1) :: alistSet rest k v

/-- Python `s.split(c)` for a single-character separator, on the
code-point sequence (Python strings are sequences of code points).
Always returns a nonempty list; `"".split(".") = [""]`. -/
def splitChar (c : Char) : List Char → List (List Char)
  | [] => [[]]
  | a :: as =>
      match splitChar c as with
      | [] => [[]]
      | g :: gs => if a = c then [] :: g :: gs else (a :: g) :: gs

/-- The reference-shape test and split of `_substitute_parameters`
(engine.py lines 563-566): `value.startswith("$\x7b") and
value.endswith("\x7d")`, then `ref_path = value[2:-1]` and
`parts = ref_path.split(".")`.  Returns `parts` when the value has the
reference shape. -/
def parseRefParts (s : String) : Option (List String) :=
  match s.data with
  | d :: b :: rest =>
      if d = '$' ∧ b = Char.ofNat 123 ∧ rest.getLast? = some (Char.ofNat 125) then
        some ((splitChar '.' rest.dropLast).map (fun cs => String.mk cs))
      else none
  | _ => none

/-- Path navigation of `WorkflowWorker._substitute_parameters`
(engine.py lines 574-581): descend through nested dicts; a missing key or
a non-dict intermediate value stops the walk (Python sets `data = None`
and breaks). -/
def navigateOutput : Val → List String → Option Val
  | v, [] => some v
  | .vdict d, p :: ps =>
      match alistGet d p with
      | some v => navigateOutput v ps
      | none => none
  | _, _ :: _ => none

mutual

/-- `WorkflowWorker._substitute_parameters` (engine.py lines 558-604):
substitute `$\x7btask.path\x7d` references from previous task outputs,
recursing into dicts and into dict items of lists.  `results` maps a
task id to that task's `output` value. -/
def substituteParameters (results : List (String × Val)) :
    List (String × Val) → List (String × Val)
  | [] => []
  | (key, value) :: rest =>
      (key, substituteValue results value) :: substituteParameters results rest
termination_by ps => sizeOf ps

/-- Substitution for one parameter value (the body of the loop in
`_substitute_parameters`).  A whole-string `$\x7bref\x7d` is resolved;
lists are mapped (only dict items recurse, via the
`_substitute_parameters(\x7b"item": item\x7d)["item"]` trick of the
source); dicts recurse; all other values pass through. -/
def substituteValue (results : List (String × Val)) : Val → Val
  | .vstr s =>
      match parseRefParts s with
      | some parts =>
        let taskId := parts.headD ""
        match alistGet results taskId with
        | some output =>
            match navigateOutput output parts.tail with
            | some v => if v == .vnull then .vlist [] else v
            | none => .vlist []
        | none => .vlist []
      | none => .vstr s
  | .vlist items =>
      .vlist (items.attach.map (fun x =>
        match x with
        | ⟨Val.vdict d, _⟩ => Val.vdict (substituteParameters results d)
        | ⟨other, _⟩ => other))
  | .vdict d => .vdict (substituteParameters results d)
  | other => other
termination_by v => sizeOf v
decreasing_by
  all_goals simp_wf
  all_goals rename_i hmem
  all_goals have h := List.sizeOf_lt_of_mem hmem
  all_goals simp at h
  all_goals omega

end

/-! ## Workflow tasks and the scheduler loop (`WorkflowWorker`) -/

/-- The scheduler-relevant fields of `WorkflowTask` (schemas.py lines
102-199): `task_id`, `depends_on`, `priority` (1..10) and `optional`.
The `optional` field is declared in the schema ("If True, workflow
continues even if this task fails") and carried here so that claims
about it can be stated. -/
structure WTask where
  task_id : String
  depends_on : List String
  priority : Int
  optional : Bool
  deriving DecidableEq, Repr

/-- Observable actions of a run: `executed id ok` records that
`_execute_task` was invoked for the task (only then can a subprocess be
spawned) and returned `ok`; `depFailed id` records the
`task_failed.emit(task_id, "Dependency failed")` of engine.py line 123. -/
inductive WfEvent where
  | executed : String → Bool → WfEvent
  | depFailed : String → WfEvent
  deriving DecidableEq, Repr

/-- The evolving state of `_execute_workflow`: the `completed_tasks` and
`failed_tasks` sets (as lists of task ids in insertion order) and the
emitted event trace. -/
structure EngState where
  completed : List String
  failed : List String
  trace : List WfEvent
  deriving DecidableEq, Repr

/-- `WorkflowWorker._get_ready_tasks` (engine.py lines 150-173): a task
is ready when it is not yet processed and every dependency is completed
and not failed.  Note the source never consults `optional` here. -/
def getReadyTasks (tasks : List WTask) (completed failed : List String) : List WTask :=
  tasks.filter (fun t =>
    !(completed.contains t.task_id) && !(failed.contains t.task_id) &&
    t.depends_on.all (fun dep => !(failed.contains dep) && completed.contains dep))

/-- Stable insertion of a task into a priority-descending list: the new
task goes before the first strictly lower-priority element, after all
earlier tasks of the same priority. -/
def orderedInsertDesc (t : WTask) : List WTask → List WTask
  | [] => [t]
  | u :: us => if t.priority ≥ u.priority then t :: u :: us else u :: orderedInsertDesc t us

/-- `ready_tasks.sort(key=lambda t: t.priority, reverse=True)` (engine.py
line 128): Python's sort is stable, so this is the stable descending
sort by priority. -/
def sortByPriorityDesc : List WTask → List WTask
  | [] => []
  | t :: ts => orderedInsertDesc t (sortByPriorityDesc ts)

/-- One run of the `while` loop of `WorkflowWorker._execute_workflow`
(engine.py lines 97-148), for a run with no stop request: while
unprocessed tasks remain, compute the ready set; if it is empty, mark
every remaining task failed with a `Dependency failed` event and stop;
otherwise execute the head of the priority-sorted ready list
(`ready_tasks[0]`) and record it as completed or failed.  `exec` gives
the success of `_execute_task` for each task; `fuel` bounds the
iteration count (the loop processes one task per iteration, so
`tasks.length + 1` is always enough). -/
def executeWorkflowLoop (tasks : List WTask) (exec : String → Bool) :
    Nat → EngState → EngState
  | 0, s => s
  | fuel + 1, s =>
    if s.completed.length + s.failed.length < tasks.length then
      let ready := getReadyTasks tasks s.completed s.failed
      match sortByPriorityDesc ready with
      | [] =>
          let remaining := tasks.filter (fun t =>
            !(s.completed.contains t.task_id) && !(s.failed.contains t.task_id))
          { s with failed := s.failed ++ remaining.map (fun t => t.task_id),
                   trace := s.trace ++ remaining.map (fun t => WfEvent.depFailed t.task_id) }
      | t :: _ =>
          let ok := exec t.task_id
          let s1 : EngState :=
            if ok then
              { s with completed := s.completed ++ [t.task_id],
                       trace := s.trace ++ [WfEvent.executed t.task_id ok] }
            else
              { s with failed := s.failed ++ [t.task_id],
                       trace := s.trace ++ [WfEvent.executed t.task_id ok] }
          executeWorkflowLoop tasks exec fuel s1
    else s

/-- A whole `_execute_workflow` run from the empty state. -/
def runWorkflow (tasks : List WTask) (exec : String → Bool) : EngState :=
  executeWorkflowLoop tasks exec (tasks.length + 1) ⟨[], [], []⟩

/-- engine.py line 67: `final_status = "completed" if not
self._stop_requested else "cancelled"` — the status written to the Scan
record depends only on the stop flag. -/
def finalRunStatus (stopRequested : Bool) : String :=
  if stopRequested then "cancelled" else "completed"

/-- The Run (Scan) Record outcome of `WorkflowWorker.run` for a run that
finishes without a stop request and without a driver-level exception:
the scheduler's final state plus the status written at engine.py
lines 66-72. -/
structure RunRecord where
  status : String
  state : EngState
  deriving DecidableEq, Repr

/-- `WorkflowWorker.run` (engine.py lines 36-91) restricted to runs with
no stop request and no driver exception. -/
def finishedRun (tasks : List WTask) (exec : String → Bool) : RunRecord :=
  { status := finalRunStatus false, state := runWorkflow tasks exec }

/-! ## Result merging (`WorkflowWorker._merge_data`, engine.py 422-475) -/

mutual

/-- Python `repr` of a dynamic value (used by `_merge_data` only through
f-string formatting of dedupe keys in the `append` strategy). -/
def pyRepr : Val → String
  | .vnull => "None"
  | .vbool b => if b then "True" else "False"
  | .vnum n => toString n
  | .vstr s => "\x27" ++ s ++ "\x27"
  | .vlist l => "[" ++ pyReprList l ++ "]"
  | .vdict d => "\x7b" ++ pyReprDict d ++ "\x7d"

def pyReprList : List Val → String
  | [] => ""
  | [v] => pyRepr v
  | v :: rest => pyRepr v ++ ", " ++ pyReprList rest

def pyReprDict : List (String × Val) → String
  | [] => ""
  | [(k, v)] => "\x27" ++ k ++ "\x27: " ++ pyRepr v
  | (k, v) :: rest => "\x27" ++ k ++ "\x27: " ++ pyRepr v ++ ", " ++ pyReprDict rest

end

/-- Python `str` of a dynamic value (f-string interpolation). -/
def pyStr : Val → String
  | .vstr s => s
  | v => pyRepr v

/-- `set(x) if isinstance(x, list) else \x7bx\x7d`: the element list of a
value treated as a set source (engine.py lines 448-449). -/
def setElems : Val → List Val
  | .vlist l => l
  | v => [v]

/-- `list(existing | new)`: the union of the two element sets, as a list.
Python's set iteration order is unspecified, so any duplicate-free list
with the union's members models it; `List.dedup` keeps one occurrence of
each element. -/
def pySetUnion (a b : Val) : List Val :=
  (setElems a ++ setElems b).dedup

/-- The fill loop of the `combine` collision update (engine.py lines
458-461): copy every field of the new item that the accumulated record
does not yet have, skipping the dedupe key and never overwriting. -/
def fillMissingFields (dedupeKey : String) (fields acc : List (String × Val)) :
    List (String × Val) :=
  fields.foldl
    (fun acc kv =>
      if alistHasKey acc kv.1 || kv.1 == dedupeKey then acc
      else alistSet acc kv.1 kv.2)
    acc

/-- One union step of the `combine` collision update (engine.py lines
446-456): when both the accumulated record and the new item carry the
field (`ips` or `asns`), replace the record's value by the set union of
both. -/
def unionFieldStep (fld : String) (rec fields : List (String × Val)) :
    List (String × Val) :=
  match alistGet rec fld, alistGet fields fld with
  | some rv, some iv => alistSet rec fld (Val.vlist (pySetUnion rv iv))
  | _, _ => rec

/-- The `combine`-strategy collision update of `_merge_data` (engine.py
lines 445-461): union the `ips` field, then the `asns` field, then fill
any other field the accumulated record does not yet have (never the
dedupe key, never overwriting). -/
def combineRecord (dedupeKey : String) (rec fields : List (String × Val)) :
    List (String × Val) :=
  fillMissingFields dedupeKey fields
    (unionFieldStep "asns" (unionFieldStep "ips" rec fields) fields)

/-- Processing of one item of one source inside `_merge_data` (engine.py
lines 433-472): skip non-dict items and items with a missing or falsy
dedupe key, then apply the strategy.  The accumulator is the insertion-
ordered `merged` dict, keyed by the item's dedupe-key value (a string
re-keying for `append`). -/
def processMergeItem (dedupeKey strategy srcId : String)
    (merged : List (Val × List (String × Val))) (item : Val) :
    List (Val × List (String × Val)) :=
  match item with
  | .vdict fields =>
      match alistGet fields dedupeKey with
      | some keyv =>
          if keyv.truthy then
            if strategy == "combine" then
              match alistGet merged keyv with
              | some rec => alistSet merged keyv (combineRecord dedupeKey rec fields)
              | none => alistSet merged keyv fields
            else if strategy == "replace" then
              alistSet merged keyv fields
            else if strategy == "append" then
              alistSet merged (Val.vstr (pyStr keyv ++ "_" ++ srcId)) fields
            else merged
          else merged
      | none => merged
  | _ => merged

/-- Processing of one source dict `\x7b"task_id": ..., "data": ...\x7d`
(engine.py lines 426-431): non-list data is skipped with a warning. -/
def processMergeSource (dedupeKey strategy : String)
    (merged : List (Val × List (String × Val))) (src : String × Val) :
    List (Val × List (String × Val)) :=
  match src.2 with
  | .vlist items => items.foldl (processMergeItem dedupeKey strategy src.1) merged
  | _ => merged

/-- `WorkflowWorker._merge_data`: fold all sources into the `merged`
dict and return `list(merged.values())`.  A source is a pair of its
producing task id and its extracted payload. -/
def mergeData (sources : List (String × Val)) (dedupeKey strategy : String) :
    List (List (String × Val)) :=
  (sources.foldl (processMergeSource dedupeKey strategy) []).map (fun p => p.2)

/-! ## Saving merged results (`_save_merged_results`, engine.py 499-556) -/

/-- The `subdomains` list collected at engine.py lines 512-518: the
`name` value of every merged record that has one, in record order. -/
def recordNames (merged : List (List (String × Val))) : List Val :=
  merged.filterMap (fun item => alistGet item "name")

/-- All-strings check: Python's `sorted` raises `TypeError` on a mixed
list, which would abort the save; the file is only written when every
collected name is a string. -/
def allVStr : List Val → Option (List String)
  | [] => some []
  | .vstr s :: rest => (allVStr rest).map (fun l => s :: l)
  | _ :: _ => none

/-- Lexicographic (code-point) comparison of character sequences: the
order Python's `sorted` uses on strings. -/
def lexLe : List Char → List Char → Bool
  | [], _ => true
  | _ :: _, [] => false
  | a :: as, b :: bs => if a = b then lexLe as bs else decide (a.toNat < b.toNat)

/-- Python's `s <= t` on strings. -/
def pyStrLe (s t : String) : Bool := lexLe s.data t.data

/-- Python's string order as a relation. -/
def PyLe (s t : String) : Prop := pyStrLe s t = true

instance : DecidableRel PyLe := fun s t => by unfold PyLe; infer_instance

/-- The content written to `lists/subdomains.txt` (engine.py lines
529-533): `"\n".join(sorted(subdomains))`, written only when the
collected name list is nonempty (`if subdomains:`).  `none` models both
"file not written" and the raising paths. -/
def savedSubdomainsContent (merged : List (List (String × Val))) : Option String :=
  match allVStr (recordNames merged) with
  | some strs =>
      if strs.isEmpty then none
      else some (String.intercalate "\n" (List.insertionSort PyLe strs))
  | none => none

/-! ## Generic tool execution (`BaseTool.execute`) -/

/-- The outcome of `subprocess.run(command, ...)` as observed by
`execute`: a completed process, a `subprocess.TimeoutExpired`, a
`FileNotFoundError` (executable missing), or any other exception. -/
inductive SpawnOutcome where
  | completedProc : String → String → Int → SpawnOutcome
  | timeoutExpired : SpawnOutcome
  | fileNotFound : String → SpawnOutcome
  | otherError : String → SpawnOutcome
  deriving DecidableEq, Repr

/-- Behaviour of an adapter's `parse_output`: return a value or raise. -/
inductive ParseOutcome where
  | returns : Val → ParseOutcome
  | raises : String → ParseOutcome

/-- An adapter as `execute` sees it, after `validate_parameters` and
`build_command` have returned normally: its metadata `name` and
`executable`, the joined command string (`' '.join(command)`), the Bool
returned by `validate_parameters`, and its `parse_output` behaviour. -/
structure ToolAdapter where
  name : String
  executable : String
  joinedCommand : String
  validOk : Bool
  parse : String → String → Int → ParseOutcome

/-- `BaseTool.execute` of `src/app/tools/base.py` (lines 55-106).
`timeoutSecs` is `params.get('timeout', default_timeout)`; `elapsed`
abstracts the measured wall-clock seconds.  Note: a `FileNotFoundError`
is caught by the generic `except Exception` handler, so the result has
no `tool_missing` key. -/
def baseToolExecute (a : ToolAdapter) (timeoutSecs elapsed : Int)
    (spawn : SpawnOutcome) : List (String × Val) :=
  if !a.validOk then
    [("success", .vbool false), ("error", .vstr "Invalid parameters"), ("data", .vdict [])]
  else
    match spawn with
    | .completedProc out err code =>
        match a.parse out err code with
        | .returns parsed =>
            [("success", .vbool (code == 0)), ("data", parsed),
             ("raw_output", .vstr out), ("errors", .vstr err),
             ("execution_time", .vnum elapsed), ("return_code", .vnum code)]
        | .raises msg =>
            [("success", .vbool false), ("error", .vstr msg), ("data", .vdict [])]
    | .timeoutExpired =>
        [("success", .vbool false),
         ("error", .vstr ("Tool execution timed out after " ++ toString timeoutSecs ++ " seconds")),
         ("data", .vdict [])]
    | .fileNotFound msg =>
        [("success", .vbool false), ("error", .vstr msg), ("data", .vdict [])]
    | .otherError msg =>
        [("success", .vbool false), ("error", .vstr msg), ("data", .vdict [])]

/-- The error message built for a missing executable by
`platform-app/app/tools/base.py` lines 128-132. -/
def toolNotFoundMessage (a : ToolAdapter) : String :=
  "Tool \x27" ++ a.executable ++ "\x27 not found. Please ensure " ++ a.name ++
    " is installed and available in PATH. Command attempted: " ++ a.joinedCommand

/-- `BaseTool.execute` of `src/platform-app/app/tools/base.py` (lines
57-151): same structure, but `FileNotFoundError` has its own handler
returning `tool_missing: True` and a message naming the tool, and the
timeout/exception handlers also report `execution_time`. -/
def platformToolExecute (a : ToolAdapter) (timeoutSecs elapsed : Int)
    (spawn : SpawnOutcome) : List (String × Val) :=
  if !a.validOk then
    [("success", .vbool false), ("error", .vstr "Invalid parameters"), ("data", .vdict [])]
  else
    match spawn with
    | .completedProc out err code =>
        match a.parse out err code with
        | .returns parsed =>
            [("success", .vbool (code == 0)), ("data", parsed),
             ("raw_output", .vstr out), ("errors", .vstr err),
             ("execution_time", .vnum elapsed), ("return_code", .vnum code)]
        | .raises msg =>
            [("success", .vbool false), ("error", .vstr msg), ("data", .vdict []),
             ("execution_time", .vnum elapsed)]
    | .timeoutExpired =>
        [("success", .vbool false),
         ("error", .vstr ("Tool execution timed out after " ++ toString timeoutSecs ++ " seconds")),
         ("data", .vdict []), ("execution_time", .vnum elapsed)]
    | .fileNotFound _ =>
        [("success", .vbool false), ("error", .vstr (toolNotFoundMessage a)),
         ("data", .vdict []), ("execution_time", .vnum elapsed),
         ("tool_missing", .vbool true)]
    | .otherError msg =>
        [("success", .vbool false), ("error", .vstr msg), ("data", .vdict []),
         ("execution_time", .vnum elapsed)]

/-! ## Circular-dependency validation
(`WorkflowDefinition.validate_no_circular_dependencies`, schemas.py
329-357) -/

/-- `deps.get(task_id, [])` over the dependency map. -/
def depsGetD (deps : List (String × List String)) (t : String) : List String :=
  (alistGet deps t).getD []

/-- `deps = \x7btask.task_id: task.depends_on for task in v\x7d`. -/
def buildDeps (tasks : List WTask) : List (String × List String) :=
  tasks.foldl (fun d t => alistSet d t.task_id t.depends_on) []

/-- The `for dep in deps.get(task_id, [])` loop of
`has_circular_dependency`, parameterized by the recursive call
(`recNode`, the same DFS with one unit of fuel less): an unvisited
dependency is recursed into, a visited dependency still on the recursion
stack is a back edge (cycle), a finished dependency is skipped.  Returns
the cycle flag together with the updated `visited` and `rec_stack`. -/
def dfsDepsLoop
    (recNode : String → List String → List String →
      Option (Bool × List String × List String)) :
    List String → List String → List String →
      Option (Bool × List String × List String)
  | [], visited, rstack => some (false, visited, rstack)
  | dep :: ds, visited, rstack =>
      if visited.contains dep then
        if rstack.contains dep then some (true, visited, rstack)
        else dfsDepsLoop recNode ds visited rstack
      else
        match recNode dep visited rstack with
        | some (true, v1, r1) => some (true, v1, r1)
        | some (false, v1, r1) => dfsDepsLoop recNode ds v1 r1
        | none => none

/-- `has_circular_dependency(task_id, visited, rec_stack, deps)`
(schemas.py lines 332-344): add the node to `visited` and `rec_stack`,
walk its dependencies, and on a cycle-free return remove it from
`rec_stack`.  `fuel` bounds the recursion depth; `none` marks fuel
exhaustion and is proved unreachable for the fuel used by the
validator. -/
def hasCircularDependency (deps : List (String × List String)) :
    Nat → String → List String → List String →
      Option (Bool × List String × List String)
  | 0, _, _, _ => none
  | fuel + 1, t, visited, rstack =>
      match dfsDepsLoop (hasCircularDependency deps fuel) (depsGetD deps t)
          (t :: visited) (t :: rstack) with
      | some (true, v1, r1) => some (true, v1, r1)
      | some (false, v1, r1) => some (false, v1, r1.erase t)
      | none => none

/-- The `for task in v` loop of `validate_no_circular_dependencies`
(schemas.py lines 352-355): run the DFS from every not-yet-visited
task. -/
def checkCircularTasks (deps : List (String × List String)) (fuel : Nat) :
    List WTask → List String → List String → Option Bool
  | [], _, _ => some false
  | t :: ts, visited, rstack =>
      if visited.contains t.task_id then checkCircularTasks deps fuel ts visited rstack
      else
        match hasCircularDependency deps fuel t.task_id visited rstack with
        | some (true, _, _) => some true
        | some (false, v1, r1) => checkCircularTasks deps fuel ts v1 r1
        | none => none

/-- Every node the DFS can ever visit: all task ids and all mentioned
dependency ids. -/
def univList (tasks : List WTask) : List String :=
  tasks.foldr (fun t acc => t.task_id :: t.depends_on ++ acc) []

/-- A recursion-depth bound that is always sufficient (each recursive
call visits a fresh node of `univList`). -/
def dfsFuel (tasks : List WTask) : Nat := (univList tasks).length + 1

/-- `validate_no_circular_dependencies` as a predicate: `some true`
means the validator raises `ValueError("Circular dependency detected
involving task ...")` and the workflow is rejected; `some false` means
it accepts. -/
def validateNoCircularDependencies (tasks : List WTask) : Option Bool :=
  checkCircularTasks (buildDeps tasks) (dfsFuel tasks) tasks [] []

/-- The edge relation of a dependency map: `x` depends directly on
`y`. -/
def EdgeOf (deps : List (String × List String)) (x y : String) : Prop :=
  y ∈ depsGetD deps x

/-- The dependency edge relation of a workflow. -/
def DepEdge (tasks : List WTask) (x y : String) : Prop :=
  EdgeOf (buildDeps tasks) x y

/-- A dependency graph is acyclic when no node reaches itself through a
nonempty chain of `depends_on` edges. -/
def DepAcyclic (tasks : List WTask) : Prop :=
  ∀ x, ¬ Relation.TransGen (DepEdge tasks) x x

/-- No cycle is reachable from `x`: no node on any path out of `x` lies
on a dependency cycle. -/
def NCR (deps : List (String × List String)) (x : String) : Prop :=
  ∀ y, Relation.ReflTransGen (EdgeOf deps) x y →
    ¬ Relation.TransGen (EdgeOf deps) y y

/-- DFS safety invariant: every fully processed node (visited and no
longer on the recursion stack) has no reachable cycle. -/
def SafeSet (deps : List (String × List String)) (V R : List String) : Prop :=
  ∀ x, x ∈ V → x ∉ R → NCR deps x

/-- Number of universe nodes not yet visited: the DFS recursion-depth
measure. -/
def dfsMeasure (univ V : List String) : Nat :=
  (univ.toFinset \ V.toFinset).card

/-- The invariant of the `_execute_workflow` loop state: processed ids
are distinct task ids; completed tasks were executed successfully;
failed tasks were either executed unsuccessfully or reported as
`Dependency failed`; a task is only executed when all its dependencies
are completed; and execution events agree with the completed/failed
sets. -/
def EngInv (tasks : List WTask) (s : EngState) : Prop :=
  (s.completed ++ s.failed).Nodup ∧
  (∀ x ∈ s.completed ++ s.failed, x ∈ tasks.map WTask.task_id) ∧
  (∀ id, id ∈ s.completed → WfEvent.executed id true ∈ s.trace) ∧
  (∀ id, id ∈ s.failed →
      WfEvent.executed id false ∈ s.trace ∨ WfEvent.depFailed id ∈ s.trace) ∧
  (∀ id ok, WfEvent.executed id ok ∈ s.trace →
      ∀ t ∈ tasks, t.task_id = id → ∀ d ∈ t.depends_on, d ∈ s.completed) ∧
  (∀ id, WfEvent.executed id true ∈ s.trace → id ∈ s.completed) ∧
  (∀ id, WfEvent.executed id false ∈ s.trace → id ∈ s.failed)

/-- The dedupe-key values of a source payload that actually take part in
the merge (dict items with a present, truthy dedupe key). -/
def mergeKeys (dedupeKey : String) (data : Val) : List Val :=
  match data with
  | .vlist items =>
      items.filterMap (fun it =>
        match it with
        | .vdict fields =>
            match alistGet fields dedupeKey with
            | some k => if k.truthy then some k else none
            | none => none
        | _ => none)
  | _ => []

/-- Hashable values: Python raises `TypeError` when a `list` or `dict`
is used as a dict key, so `_merge_data` only completes (under `combine`
and `replace`) when every dedupe-key value is a scalar. -/
def Val.isHashable : Val → Bool
  | .vlist _ => false
  | .vdict _ => false
  | _ => true

/-- The element set of a record's `ips`/`asns`-style field, an absent
field contributing nothing. -/
def fieldElems (fld : String) (rec : List (String × Val)) : List Val :=
  match alistGet rec fld with
  | some v => setElems v
  | none => []

/-! ## Basic lemmas about the embedded dictionary operations -/

theorem contains_iff_mem (l : List String) (x : String) :
    l.contains x = true ↔ x ∈ l := by
  induction l with
  | nil => simp
  | cons a as ih => simp [List.contains] at ih ⊢

theorem alistHasKey_iff_get {α β : Type} [BEq α] (d : List (α × β)) (k : α) :
    alistHasKey d k = true ↔ ∃ v, alistGet d k = some v := by
  unfold alistHasKey alistGet
  cases d.find? (fun p => p.1 == k) <;> simp

/-! ## C10 and C9: the generic adapter `execute` -/

/-- C10: whenever `validate_parameters` and `build_command` return
normally, the generic `BaseTool.execute` (both the `src/app` and the
`src/platform-app` versions) returns, for every subprocess outcome
(normal completion, timeout, missing executable, any other spawn error)
and every `parse_output` behaviour (return or raise), a dict that
contains a `success` key and a `data` key; no outcome propagates an
exception (the embedding is a total function into result dicts). -/
theorem execute_total_success_data_keys :
    ∀ (a : ToolAdapter) (tsec el : Int) (spawn : SpawnOutcome),
      (alistHasKey (baseToolExecute a tsec el spawn) "success" = true ∧
       alistHasKey (baseToolExecute a tsec el spawn) "data" = true) ∧
      (alistHasKey (platformToolExecute a tsec el spawn) "success" = true ∧
       alistHasKey (platformToolExecute a tsec el spawn) "data" = true) := by
  intro a tsec el spawn
  constructor
  · unfold baseToolExecute
    cases a.validOk with
    | false => simp [alistHasKey, List.find?]
    | true =>
      cases spawn with
      | completedProc out err code =>
          cases hp : a.parse out err code <;> simp [alistHasKey, List.find?, hp]
      | timeoutExpired => simp [alistHasKey, List.find?]
      | fileNotFound msg => simp [alistHasKey, List.find?]
      | otherError msg => simp [alistHasKey, List.find?]
  · unfold platformToolExecute
    cases a.validOk with
    | false => simp [alistHasKey, List.find?]
    | true =>
      cases spawn with
      | completedProc out err code =>
          cases hp : a.parse out err code <;> simp [alistHasKey, List.find?, hp]
      | timeoutExpired => simp [alistHasKey, List.find?]
      | fileNotFound msg => simp [alistHasKey, List.find?]
      | otherError msg => simp [alistHasKey, List.find?]

/-- C9 counterexample: in the `src/app/tools/base.py` version of
`BaseTool.execute`, a `FileNotFoundError` while spawning is caught by
the generic `except Exception` handler, so the returned dict has no
`tool_missing` key at all — the claim that every executable-not-found
execution returns `tool_missing = true` is false. -/
theorem missing_executable_counterexample :
    alistGet (baseToolExecute
        ⟨"nmap", "nmap", "nmap -sV target", true, fun _ _ _ => ParseOutcome.returns (Val.vdict [])⟩
        300 0 (SpawnOutcome.fileNotFound "[Errno 2] No such file or directory: \x27nmap\x27"))
      "tool_missing" = none ∧
    alistGet (baseToolExecute
        ⟨"nmap", "nmap", "nmap -sV target", true, fun _ _ _ => ParseOutcome.returns (Val.vdict [])⟩
        300 0 (SpawnOutcome.fileNotFound "[Errno 2] No such file or directory: \x27nmap\x27"))
      "success" = some (Val.vbool false) := by
  decide

/-- C9 amended: only the `platform-app` version of `BaseTool.execute`
returns `success = false`, `tool_missing = true` and an error naming the
missing tool on executable-not-found (and it does not raise); the
`src/app` version also returns `success = false` without raising, but
its result carries the raw exception text and no `tool_missing` key. -/
theorem missing_executable_soft_failure (a : ToolAdapter) (tsec el : Int)
    (msg : String) (hv : a.validOk = true) :
    (alistGet (platformToolExecute a tsec el (SpawnOutcome.fileNotFound msg))
        "success" = some (Val.vbool false) ∧
     alistGet (platformToolExecute a tsec el (SpawnOutcome.fileNotFound msg))
        "tool_missing" = some (Val.vbool true) ∧
     alistGet (platformToolExecute a tsec el (SpawnOutcome.fileNotFound msg))
        "error" = some (Val.vstr (toolNotFoundMessage a))) ∧
    (alistGet (baseToolExecute a tsec el (SpawnOutcome.fileNotFound msg))
        "success" = some (Val.vbool false) ∧
     alistGet (baseToolExecute a tsec el (SpawnOutcome.fileNotFound msg))
        "error" = some (Val.vstr msg) ∧
     alistGet (baseToolExecute a tsec el (SpawnOutcome.fileNotFound msg))
        "tool_missing" = none) := by
  unfold platformToolExecute baseToolExecute
  rw [hv]
  simp [alistGet, List.find?]

theorem missing_executable_soft_failure_witness :
    alistGet (platformToolExecute
        ⟨"nmap", "nmap", "nmap -sV target", true, fun _ _ _ => ParseOutcome.returns (Val.vdict [])⟩
        300 0 (SpawnOutcome.fileNotFound "err"))
      "tool_missing" = some (Val.vbool true) :=
  (missing_executable_soft_failure
    ⟨"nmap", "nmap", "nmap -sV target", true, fun _ _ _ => ParseOutcome.returns (Val.vdict [])⟩
    300 0 "err" rfl).1.2.1

/-! ## C1: the final Run Record status -/

/-- C1 counterexample: a one-task workflow whose task fails ends with a
nonempty failed set, yet `WorkflowWorker.run` (engine.py line 67) still
writes status `completed` because the status depends only on the stop
flag — so "`completed` iff the failed set is empty" is false. -/
theorem final_status_counterexample :
    (finishedRun [⟨"t1", [], 1, false⟩] (fun _ => false)).status = "completed" ∧
    (finishedRun [⟨"t1", [], 1, false⟩] (fun _ => false)).state.failed = ["t1"] := by
  decide

/-- C1 amended: for every workflow run that finishes without a stop
request and without a driver-level exception, the final status written
to the Run (Scan) Record is `completed` regardless of the scheduler's
failed set (in particular also when tasks failed); the failed set never
influences the final status. -/
theorem final_status_always_completed :
    ∀ (tasks : List WTask) (exec : String → Bool),
      (finishedRun tasks exec).status = "completed" := by
  intro tasks exec
  rfl

/-! ## C6: priority selection -/

theorem orderedInsertDesc_perm (t : WTask) (l : List WTask) :
    (orderedInsertDesc t l).Perm (t :: l) := by
  induction l with
  | nil => simp [orderedInsertDesc]
  | cons u us ih =>
    unfold orderedInsertDesc
    by_cases h : t.priority ≥ u.priority
    · simp [h]
    · simp only [h, if_false]
      have h1 : (u :: orderedInsertDesc t us).Perm (u :: t :: us) := ih.cons u
      have h2 : (u :: t :: us).Perm (t :: u :: us) := List.Perm.swap t u us
      exact h1.trans h2

theorem sortByPriorityDesc_perm (l : List WTask) :
    (sortByPriorityDesc l).Perm l := by
  induction l with
  | nil => simp [sortByPriorityDesc]
  | cons t ts ih =>
    unfold sortByPriorityDesc
    exact (orderedInsertDesc_perm t (sortByPriorityDesc ts)).trans (List.Perm.cons t ih)

theorem orderedInsertDesc_pairwise (t : WTask) (l : List WTask)
    (h : l.Pairwise (fun a b => b.priority ≤ a.priority)) :
    (orderedInsertDesc t l).Pairwise (fun a b => b.priority ≤ a.priority) := by
  induction l with
  | nil => simp [orderedInsertDesc]
  | cons u us ih =>
    unfold orderedInsertDesc
    rcases List.pairwise_cons.mp h with ⟨hu, hus⟩
    by_cases hp : t.priority ≥ u.priority
    · simp only [hp, if_true]
      refine List.pairwise_cons.mpr ⟨?_, h⟩
      intro b hb
      rcases List.mem_cons.mp hb with rfl | hb
      · exact hp
      · exact le_trans (hu b hb) hp
    · simp only [hp, if_false]
      refine List.pairwise_cons.mpr ⟨?_, ih hus⟩
      intro b hb
      have hb' := (orderedInsertDesc_perm t us).mem_iff.mp hb
      rcases List.mem_cons.mp hb' with rfl | hb'
      · exact le_of_not_ge hp
      · exact hu b hb'

theorem sortByPriorityDesc_pairwise (l : List WTask) :
    (sortByPriorityDesc l).Pairwise (fun a b => b.priority ≤ a.priority) := by
  induction l with
  | nil => simp [sortByPriorityDesc]
  | cons t ts ih => exact orderedInsertDesc_pairwise t _ ih

/-- The head of the stable descending sort is the first element of the
original list achieving the maximal priority: everything before it in
the original list has strictly smaller priority. -/
theorem sortByPriorityDesc_head_first_max (l : List WTask) (sel : WTask)
    (rest : List WTask) (hsort : sortByPriorityDesc l = sel :: rest) :
    ∃ pre post, l = pre ++ sel :: post ∧ ∀ x ∈ pre, x.priority < sel.priority := by
  induction l generalizing sel rest with
  | nil => simp [sortByPriorityDesc] at hsort
  | cons t ts ih =>
    unfold sortByPriorityDesc at hsort
    cases hts : sortByPriorityDesc ts with
    | nil =>
      rw [hts] at hsort
      have hperm := sortByPriorityDesc_perm ts
      rw [hts] at hperm
      have hts0 : ts = [] := hperm.symm.eq_nil
      subst hts0
      unfold orderedInsertDesc at hsort
      injection hsort with h1 h2
      subst h1
      exact ⟨[], [], rfl, by simp⟩
    | cons s r =>
      rw [hts] at hsort
      unfold orderedInsertDesc at hsort
      by_cases hp : t.priority ≥ s.priority
      · simp only [hp, if_true] at hsort
        injection hsort with h1 h2
        subst h1
        exact ⟨[], ts, rfl, by simp⟩
      · simp only [hp, if_false] at hsort
        injection hsort with h1 h2
        subst h1
        obtain ⟨pre, post, hsplit, hpre⟩ := ih s r hts
        refine ⟨t :: pre, post, by simp [hsplit], ?_⟩
        intro x hx
        rcases List.mem_cons.mp hx with rfl | hx
        · exact lt_of_not_ge hp
        · exact hpre x hx

/-- C6: at every scheduler poll with a nonempty ready set, the task the
loop selects (`ready_tasks.sort(key=priority, reverse=True)` then
`ready_tasks[0]`, engine.py lines 127-129) is a ready task of maximal
priority, and among ready tasks of that priority it is the one occurring
first; since the ready set is computed as an in-order sublist of the
workflow's task list, that is the earliest in declaration order. -/
theorem scheduler_selects_max_priority_earliest (tasks : List WTask)
    (completed failed : List String) (sel : WTask) (rest : List WTask)
    (hsort : sortByPriorityDesc (getReadyTasks tasks completed failed) = sel :: rest) :
    sel ∈ getReadyTasks tasks completed failed ∧
    (∀ t ∈ getReadyTasks tasks completed failed, t.priority ≤ sel.priority) ∧
    (getReadyTasks tasks completed failed).Sublist tasks ∧
    ∃ pre post, getReadyTasks tasks completed failed = pre ++ sel :: post ∧
      ∀ t ∈ pre, t.priority < sel.priority := by
  set ready := getReadyTasks tasks completed failed with hready
  have hperm := sortByPriorityDesc_perm ready
  rw [hsort] at hperm
  refine ⟨?_, ?_, ?_, ?_⟩
  · exact hperm.mem_iff.mp (List.mem_cons_self sel rest)
  · intro t ht
    have ht' := hperm.symm.mem_iff.mp ht
    rcases List.mem_cons.mp ht' with rfl | ht'
    · exact le_refl _
    · have hpw := sortByPriorityDesc_pairwise ready
      rw [hsort] at hpw
      exact (List.pairwise_cons.mp hpw).1 t ht'
  · exact List.filter_sublist tasks
  · exact sortByPriorityDesc_head_first_max ready sel rest hsort

theorem scheduler_selects_max_priority_earliest_witness :
    (⟨"b", [], 5, false⟩ : WTask) ∈
      getReadyTasks [⟨"a", [], 1, false⟩, ⟨"b", [], 5, false⟩, ⟨"c", [], 5, false⟩] [] [] :=
  (scheduler_selects_max_priority_earliest
    [⟨"a", [], 1, false⟩, ⟨"b", [], 5, false⟩, ⟨"c", [], 5, false⟩] [] []
    ⟨"b", [], 5, false⟩ [⟨"c", [], 5, false⟩, ⟨"a", [], 1, false⟩] (by decide)).1

/-! ## C5: parameter resolution -/

/-- C5 amended: for a parameter whose value is exactly the reference
string `$\x7bt.s1.….sn\x7d` (i.e. `parseRefParts` yields `t :: segs`):
if task `t` is present in the task-result map and its output contains a
non-null value `v` reached by descending through the segments, the
resolved parameter equals `v`; if the reached value is Python `None`,
or `t` is absent, or any segment is missing along the path, the resolved
parameter is the empty list `[]` (the source conflates a reached `None`
with a failed walk at engine.py line 583). -/
theorem parameter_resolution (results : List (String × Val)) (s t : String)
    (segs : List String) (hparse : parseRefParts s = some (t :: segs)) :
    (∀ output v, alistGet results t = some output →
        navigateOutput output segs = some v → v ≠ Val.vnull →
        substituteValue results (Val.vstr s) = v) ∧
    (∀ output, alistGet results t = some output →
        navigateOutput output segs = some Val.vnull →
        substituteValue results (Val.vstr s) = Val.vlist []) ∧
    (∀ output, alistGet results t = some output →
        navigateOutput output segs = none →
        substituteValue results (Val.vstr s) = Val.vlist []) ∧
    (alistGet results t = none → substituteValue results (Val.vstr s) = Val.vlist []) := by
  have base : substituteValue results (Val.vstr s) =
      (match alistGet results t with
       | some output =>
           match navigateOutput output segs with
           | some v => if v == Val.vnull then Val.vlist [] else v
           | none => Val.vlist []
       | none => Val.vlist []) := by
    simp only [substituteValue]
    rw [hparse]
    rfl
  refine ⟨?_, ?_, ?_, ?_⟩
  · intro output v hout hnav hv
    rw [base]
    simp [hout, hnav, hv]
  · intro output hout hnav
    rw [base]
    simp [hout, hnav]
  · intro output hout hnav
    rw [base]
    simp [hout, hnav]
  · intro hout
    rw [base]
    simp [hout]

theorem parameter_resolution_witness :
    substituteValue [("t", Val.vdict [("x", Val.vdict [("y", Val.vstr "vee")])])]
      (Val.vstr "$\x7bt.x.y\x7d") = Val.vstr "vee" :=
  (parameter_resolution [("t", Val.vdict [("x", Val.vdict [("y", Val.vstr "vee")])])]
      "$\x7bt.x.y\x7d" "t" ["x", "y"] (by decide)).1
    (Val.vdict [("x", Val.vdict [("y", Val.vstr "vee")])]) (Val.vstr "vee")
    (by decide) (by decide) (by decide)

/-- C5 counterexample: the output of task `t` contains the value `None`
at path `x`, yet the resolved parameter is `[]` rather than that value —
`substituted[key] = data if data is not None else []` (engine.py line
583) turns a reached null into the empty list, refuting "the resolved
parameter equals v" for `v = None`. -/
theorem parameter_resolution_counterexample :
    navigateOutput (Val.vdict [("x", Val.vnull)]) ["x"] = some Val.vnull ∧
    substituteParameters [("t", Val.vdict [("x", Val.vnull)])]
      [("p", Val.vstr "$\x7bt.x\x7d")] = [("p", Val.vlist [])] ∧
    Val.vlist [] ≠ Val.vnull := by
  refine ⟨by decide, ?_, by decide⟩
  simp only [substituteParameters, substituteValue]
  decide

/-! ## C8: the subdomains list file -/

theorem lexLe_total : ∀ as bs : List Char, lexLe as bs = true ∨ lexLe bs as = true := by
  intro as
  induction as with
  | nil => intro bs; left; rfl
  | cons a as ih =>
    intro bs
    cases bs with
    | nil => right; rfl
    | cons b bs =>
      unfold lexLe
      by_cases hab : a = b
      · subst hab
        simp only [if_true]
        exact ih bs
      · have hba : b ≠ a := fun h => hab h.symm
        simp only [hab, hba, if_false]
        rcases Nat.lt_trichotomy a.toNat b.toNat with hlt | heq | hgt
        · left; simpa using hlt
        · exact absurd (Char.ext (UInt32.ext heq)) hab
        · right; simpa using hgt

theorem lexLe_trans : ∀ as bs cs : List Char,
    lexLe as bs = true → lexLe bs cs = true → lexLe as cs = true := by
  intro as
  induction as with
  | nil => intro bs cs _ _; rfl
  | cons a as ih =>
    intro bs cs h1 h2
    cases bs with
    | nil => simp [lexLe] at h1
    | cons b bs =>
      cases cs with
      | nil => simp [lexLe] at h2
      | cons c cs =>
        unfold lexLe at h1 h2 ⊢
        by_cases hab : a = b <;> by_cases hbc : b = c
        · subst hab; subst hbc
          simp only [if_true] at h1 h2 ⊢
          exact ih bs cs h1 h2
        · subst hab
          simp only [if_true] at h1
          simp only [hbc, if_false] at h2 ⊢
          exact h2
        · subst hbc
          simp only [if_true] at h2
          simp only [hab, if_false] at h1 ⊢
          exact h1
        · simp only [hab, hbc, if_false] at h1 h2
          have hac : a.toNat < c.toNat :=
            Nat.lt_trans (by simpa using h1) (by simpa using h2)
          have hne : a ≠ c := by
            intro h
            subst h
            exact Nat.lt_irrefl _ hac
          simp [hne, hac]

theorem pyLe_total (a b : String) : PyLe a b ∨ PyLe b a := lexLe_total a.data b.data

theorem pyLe_trans (a b c : String) : PyLe a b → PyLe b c → PyLe a c :=
  lexLe_trans a.data b.data c.data

/-- C8 amended: after a successful merge task, `lists/subdomains.txt`
contains exactly the `name` values of the merged records (with
multiplicity), sorted in Python's string order, one name per line; the
entries are unique whenever the merged records carry pairwise distinct
names (as with the default `dedupe_key = "name"` under `combine` or
`replace`), but duplicate names are written as duplicate lines because
the source collects them in a plain list (engine.py lines 512-534). -/
theorem saved_subdomains_sorted (merged : List (List (String × Val)))
    (names : List String) (hnames : allVStr (recordNames merged) = some names)
    (hne : names ≠ []) :
    savedSubdomainsContent merged =
      some (String.intercalate "\n" (List.insertionSort PyLe names)) ∧
    (List.insertionSort PyLe names).Sorted PyLe ∧
    (List.insertionSort PyLe names).Perm names ∧
    (names.Nodup → (List.insertionSort PyLe names).Nodup) := by
  haveI htot : IsTotal String PyLe := ⟨pyLe_total⟩
  haveI htrans : IsTrans String PyLe := ⟨pyLe_trans⟩
  refine ⟨?_, ?_, ?_, ?_⟩
  · unfold savedSubdomainsContent
    rw [hnames]
    simp [hne]
  · exact List.sorted_insertionSort PyLe names
  · exact List.perm_insertionSort PyLe names
  · intro h
    exact (List.perm_insertionSort PyLe names).nodup_iff.mpr h

theorem saved_subdomains_sorted_witness :
    savedSubdomainsContent [[("name", Val.vstr "b")], [("name", Val.vstr "a")]] =
      some (String.intercalate "\n" (List.insertionSort PyLe ["b", "a"])) :=
  (saved_subdomains_sorted [[("name", Val.vstr "b")], [("name", Val.vstr "a")]]
    ["b", "a"] (by decide) (by decide)).1

/-- C8 counterexample: an `append`-strategy merge of two sources whose
items share the name `a` succeeds and produces two merged records named
`a`; `_save_merged_results` then writes the line `a` twice to
`lists/subdomains.txt` — the written name list `["a", "a"]` is not
duplicate-free, refuting "with no duplicate entries". -/
theorem saved_subdomains_duplicates_counterexample :
    recordNames (mergeData
        [("s1", Val.vlist [Val.vdict [("name", Val.vstr "a")]]),
         ("s2", Val.vlist [Val.vdict [("name", Val.vstr "a")]])]
        "name" "append") = [Val.vstr "a", Val.vstr "a"] ∧
    savedSubdomainsContent (mergeData
        [("s1", Val.vlist [Val.vdict [("name", Val.vstr "a")]]),
         ("s2", Val.vlist [Val.vdict [("name", Val.vstr "a")]])]
        "name" "append") = some (String.intercalate "\n" ["a", "a"]) ∧
    ¬ ((["a", "a"] : List String).Nodup) := by
  decide

/-! ## The scheduler loop invariant (C2, C3) -/

theorem contains_eq_false_iff (l : List String) (x : String) :
    l.contains x = false ↔ x ∉ l := by
  rw [← contains_iff_mem]
  simp

theorem getReadyTasks_mem_iff (tasks : List WTask) (completed failed : List String)
    (t : WTask) :
    t ∈ getReadyTasks tasks completed failed ↔
      t ∈ tasks ∧ t.task_id ∉ completed ∧ t.task_id ∉ failed ∧
        ∀ d ∈ t.depends_on, d ∉ failed ∧ d ∈ completed := by
  unfold getReadyTasks
  simp only [List.mem_filter, Bool.and_eq_true, Bool.not_eq_true', List.all_eq_true,
    contains_eq_false_iff, contains_iff_mem]
  tauto

theorem task_id_injective {tasks : List WTask}
    (huniq : (tasks.map WTask.task_id).Nodup) :
    ∀ t1 ∈ tasks, ∀ t2 ∈ tasks, t1.task_id = t2.task_id → t1 = t2 :=
  fun t1 h1 t2 h2 h => List.inj_on_of_nodup_map huniq h1 h2 h

theorem nodup_insert_completed (completed failed : List String) (x : String)
    (h : (completed ++ failed).Nodup) (hx1 : x ∉ completed) (hx2 : x ∉ failed) :
    ((completed ++ [x]) ++ failed).Nodup := by
  rw [List.nodup_append] at h ⊢
  rcases h with ⟨h1, h2, h3⟩
  refine ⟨?_, h2, ?_⟩
  · rw [List.nodup_append]
    exact ⟨h1, List.nodup_singleton x, by
      intro a ha hb
      simp at hb
      subst hb
      exact hx1 ha⟩
  · intro a ha
    rcases List.mem_append.mp ha with ha' | ha'
    · exact h3 ha'
    · simp at ha'
      subst ha'
      exact hx2

theorem nodup_append_failed_block (completed failed rem : List String)
    (h : (completed ++ failed).Nodup) (hrem : rem.Nodup)
    (hdis : ∀ x ∈ rem, x ∉ completed ∧ x ∉ failed) :
    (completed ++ (failed ++ rem)).Nodup := by
  rw [List.nodup_append] at h ⊢
  rcases h with ⟨h1, h2, h3⟩
  refine ⟨h1, ?_, ?_⟩
  · rw [List.nodup_append]
    exact ⟨h2, hrem, fun a ha hb => (hdis a hb).2 ha⟩
  · intro a ha hb
    rcases List.mem_append.mp hb with hb' | hb'
    · exact h3 ha hb'
    · exact (hdis a hb').1 ha

/-- The master specification of the `_execute_workflow` loop: the
invariant is preserved, the fuel `tasks.length + 1` settles every task
into exactly one of `completed`/`failed`, and the state only grows. -/
theorem executeWorkflowLoop_spec (tasks : List WTask) (exec : String → Bool)
    (huniq : (tasks.map WTask.task_id).Nodup) :
    ∀ (fuel : Nat) (s : EngState), EngInv tasks s →
      tasks.length + 1 ≤ fuel + s.completed.length + s.failed.length →
      EngInv tasks (executeWorkflowLoop tasks exec fuel s) ∧
      (∀ t ∈ tasks, t.task_id ∈ (executeWorkflowLoop tasks exec fuel s).completed ∨
          t.task_id ∈ (executeWorkflowLoop tasks exec fuel s).failed) ∧
      (∀ x ∈ s.completed, x ∈ (executeWorkflowLoop tasks exec fuel s).completed) ∧
      (∀ x ∈ s.failed, x ∈ (executeWorkflowLoop tasks exec fuel s).failed) ∧
      (∀ e ∈ s.trace, e ∈ (executeWorkflowLoop tasks exec fuel s).trace) := by
  intro fuel
  induction fuel with
  | zero =>
    intro s hinv harith
    exfalso
    obtain ⟨hnd, hsub, _⟩ := hinv
    have hlen : (s.completed ++ s.failed).length ≤ (tasks.map WTask.task_id).length := by
      have h1 : (s.completed ++ s.failed).toFinset.card = (s.completed ++ s.failed).length :=
        List.toFinset_card_of_nodup hnd
      have h2 : (s.completed ++ s.failed).toFinset ⊆ (tasks.map WTask.task_id).toFinset := by
        intro x hx
        rw [List.mem_toFinset] at hx ⊢
        exact hsub x hx
      have h3 := Finset.card_le_card h2
      have h4 := List.toFinset_card_le (tasks.map WTask.task_id)
      omega
    simp only [List.length_append, List.length_map] at hlen
    omega
  | succ fuel ih =>
    intro s hinv harith
    unfold executeWorkflowLoop
    by_cases hlt : s.completed.length + s.failed.length < tasks.length
    · simp only [hlt, if_true]
      cases hsort : sortByPriorityDesc (getReadyTasks tasks s.completed s.failed) with
      | nil =>
        -- blocked: every remaining task is marked failed with a
        -- `Dependency failed` event, and the loop stops.
        set rem := tasks.filter (fun t =>
          !(s.completed.contains t.task_id) && !(s.failed.contains t.task_id)) with hrem
        obtain ⟨hnd, hsub, hce, hfe, hed, het, hef⟩ := hinv
        have hremid : ∀ x ∈ rem.map WTask.task_id, x ∉ s.completed ∧ x ∉ s.failed := by
          intro x hx
          rcases List.mem_map.mp hx with ⟨t, ht, rfl⟩
          have := (List.mem_filter.mp ht).2
          simp only [Bool.and_eq_true, Bool.not_eq_true', contains_eq_false_iff] at this
          exact this
        have hremnd : (rem.map WTask.task_id).Nodup := by
          have hsl : (rem.map WTask.task_id).Sublist (tasks.map WTask.task_id) :=
            (List.filter_sublist tasks).map WTask.task_id
          exact huniq.sublist hsl
        refine ⟨⟨?_, ?_, ?_, ?_, ?_, ?_, ?_⟩, ?_, ?_, ?_, ?_⟩
        · exact nodup_append_failed_block _ _ _ hnd hremnd hremid
        · intro x hx
          rcases List.mem_append.mp hx with hx | hx
          · exact hsub x (List.mem_append.mpr (Or.inl hx))
          · rcases List.mem_append.mp hx with hx | hx
            · exact hsub x (List.mem_append.mpr (Or.inr hx))
            · rcases List.mem_map.mp hx with ⟨t, ht, rfl⟩
              exact List.mem_map.mpr ⟨t, (List.mem_filter.mp ht).1, rfl⟩
        · intro id hid
          exact List.mem_append.mpr (Or.inl (hce id hid))
        · intro id hid
          rcases List.mem_append.mp hid with hid | hid
          · rcases hfe id hid with h | h
            · exact Or.inl (List.mem_append.mpr (Or.inl h))
            · exact Or.inr (List.mem_append.mpr (Or.inl h))
          · rcases List.mem_map.mp hid with ⟨t, ht, rfl⟩
            refine Or.inr (List.mem_append.mpr (Or.inr ?_))
            exact List.mem_map.mpr ⟨t, ht, rfl⟩
        · intro id ok hev t ht hid d hd
          rcases List.mem_append.mp hev with hev | hev
          · exact hed id ok hev t ht hid d hd
          · exfalso
            rcases List.mem_map.mp hev with ⟨u, _, h⟩
            exact WfEvent.noConfusion h
        · intro id hev
          rcases List.mem_append.mp hev with hev | hev
          · exact het id hev
          · exfalso
            rcases List.mem_map.mp hev with ⟨u, _, h⟩
            exact WfEvent.noConfusion h
        · intro id hev
          rcases List.mem_append.mp hev with hev | hev
          · exact List.mem_append.mpr (Or.inl (hef id hev))
          · exfalso
            rcases List.mem_map.mp hev with ⟨u, _, h⟩
            exact WfEvent.noConfusion h
        · intro t ht
          by_cases hc : t.task_id ∈ s.completed
          · exact Or.inl hc
          · by_cases hf : t.task_id ∈ s.failed
            · exact Or.inr (List.mem_append.mpr (Or.inl hf))
            · refine Or.inr (List.mem_append.mpr (Or.inr ?_))
              refine List.mem_map.mpr ⟨t, ?_, rfl⟩
              refine List.mem_filter.mpr ⟨ht, ?_⟩
              simp [contains_eq_false_iff, hc, hf]
        · intro x hx; exact hx
        · intro x hx; exact List.mem_append.mpr (Or.inl hx)
        · intro e he; exact List.mem_append.mpr (Or.inl he)
      | cons sel rest =>
        dsimp only
        have hselready : sel ∈ getReadyTasks tasks s.completed s.failed := by
          have hperm := sortByPriorityDesc_perm (getReadyTasks tasks s.completed s.failed)
          rw [hsort] at hperm
          exact hperm.mem_iff.mp (List.mem_cons_self sel rest)
        obtain ⟨hseltask, hselc, hself, hseldep⟩ :=
          (getReadyTasks_mem_iff tasks s.completed s.failed sel).mp hselready
        obtain ⟨hnd, hsub, hce, hfe, hed, het, hef⟩ := hinv
        cases hok : exec sel.task_id with
        | true =>
          rw [if_pos rfl]
          have hinv1 : EngInv tasks
              { s with completed := s.completed ++ [sel.task_id],
                       trace := s.trace ++ [WfEvent.executed sel.task_id true] } := by
            refine ⟨?_, ?_, ?_, ?_, ?_, ?_, ?_⟩
            · exact nodup_insert_completed _ _ _ hnd hselc hself
            · intro x hx
              rcases List.mem_append.mp hx with hx | hx
              · rcases List.mem_append.mp hx with hx | hx
                · exact hsub x (List.mem_append.mpr (Or.inl hx))
                · simp at hx
                  subst hx
                  exact List.mem_map.mpr ⟨sel, hseltask, rfl⟩
              · exact hsub x (List.mem_append.mpr (Or.inr hx))
            · intro id hid
              rcases List.mem_append.mp hid with hid | hid
              · exact List.mem_append.mpr (Or.inl (hce id hid))
              · simp at hid
                subst hid
                exact List.mem_append.mpr (Or.inr (by simp))
            · intro id hid
              rcases hfe id hid with h | h
              · exact Or.inl (List.mem_append.mpr (Or.inl h))
              · exact Or.inr (List.mem_append.mpr (Or.inl h))
            · intro id ok hev t ht hid d hd
              rcases List.mem_append.mp hev with hev | hev
              · exact List.mem_append.mpr (Or.inl (hed id ok hev t ht hid d hd))
              · have heq : WfEvent.executed id ok = WfEvent.executed sel.task_id true :=
                  List.mem_singleton.mp hev
                injection heq with h1 h2
                subst h1
                have ht' : t = sel := task_id_injective huniq t ht sel hseltask hid
                subst ht'
                exact List.mem_append.mpr (Or.inl ((hseldep d hd).2))
            · intro id hev
              rcases List.mem_append.mp hev with hev | hev
              · exact List.mem_append.mpr (Or.inl (het id hev))
              · have heq : WfEvent.executed id true = WfEvent.executed sel.task_id true :=
                  List.mem_singleton.mp hev
                injection heq with h1 h2
                subst h1
                exact List.mem_append.mpr (Or.inr (by simp))
            · intro id hev
              rcases List.mem_append.mp hev with hev | hev
              · exact hef id hev
              · have heq : WfEvent.executed id false = WfEvent.executed sel.task_id true :=
                  List.mem_singleton.mp hev
                injection heq with h1 h2
                exact Bool.noConfusion h2
          have harith1 : tasks.length + 1 ≤
              fuel + (s.completed ++ [sel.task_id]).length + s.failed.length := by
            simp only [List.length_append, List.length_singleton]
            omega
          obtain ⟨hI, hS, hMc, hMf, hMt⟩ := ih _ hinv1 harith1
          refine ⟨hI, hS, ?_, ?_, ?_⟩
          · intro x hx
            exact hMc x (List.mem_append.mpr (Or.inl hx))
          · intro x hx
            exact hMf x hx
          · intro e he
            exact hMt e (List.mem_append.mpr (Or.inl he))
        | false =>
          rw [if_neg (by simp)]
          have hinv1 : EngInv tasks
              { s with failed := s.failed ++ [sel.task_id],
                       trace := s.trace ++ [WfEvent.executed sel.task_id false] } := by
            refine ⟨?_, ?_, ?_, ?_, ?_, ?_, ?_⟩
            · have := nodup_append_failed_block s.completed s.failed [sel.task_id] hnd
                (List.nodup_singleton _) (by
                  intro x hx
                  simp at hx
                  subst hx
                  exact ⟨hselc, hself⟩)
              simpa using this
            · intro x hx
              rcases List.mem_append.mp hx with hx | hx
              · exact hsub x (List.mem_append.mpr (Or.inl hx))
              · rcases List.mem_append.mp hx with hx | hx
                · exact hsub x (List.mem_append.mpr (Or.inr hx))
                · simp at hx
                  subst hx
                  exact List.mem_map.mpr ⟨sel, hseltask, rfl⟩
            · intro id hid
              exact List.mem_append.mpr (Or.inl (hce id hid))
            · intro id hid
              rcases List.mem_append.mp hid with hid | hid
              · rcases hfe id hid with h | h
                · exact Or.inl (List.mem_append.mpr (Or.inl h))
                · exact Or.inr (List.mem_append.mpr (Or.inl h))
              · simp only [List.mem_singleton] at hid
                subst hid
                exact Or.inl (List.mem_append.mpr (Or.inr (by simp)))
            · intro id ok hev t ht hid d hd
              rcases List.mem_append.mp hev with hev | hev
              · exact hed id ok hev t ht hid d hd
              · have heq : WfEvent.executed id ok = WfEvent.executed sel.task_id false :=
                  List.mem_singleton.mp hev
                injection heq with h1 h2
                subst h1
                have ht' : t = sel := task_id_injective huniq t ht sel hseltask hid
                subst ht'
                exact (hseldep d hd).2
            · intro id hev
              rcases List.mem_append.mp hev with hev | hev
              · exact het id hev
              · have heq : WfEvent.executed id true = WfEvent.executed sel.task_id false :=
                  List.mem_singleton.mp hev
                injection heq with h1 h2
                exact Bool.noConfusion h2
            · intro id hev
              rcases List.mem_append.mp hev with hev | hev
              · exact List.mem_append.mpr (Or.inl (hef id hev))
              · have heq : WfEvent.executed id false = WfEvent.executed sel.task_id false :=
                  List.mem_singleton.mp hev
                injection heq with h1 h2
                subst h1
                exact List.mem_append.mpr (Or.inr (by simp))
          have harith1 : tasks.length + 1 ≤
              fuel + s.completed.length + (s.failed ++ [sel.task_id]).length := by
            simp only [List.length_append, List.length_singleton]
            omega
          obtain ⟨hI, hS, hMc, hMf, hMt⟩ := ih _ hinv1 harith1
          refine ⟨hI, hS, ?_, ?_, ?_⟩
          · intro x hx
            exact hMc x hx
          · intro x hx
            exact hMf x (List.mem_append.mpr (Or.inl hx))
          · intro e he
            exact hMt e (List.mem_append.mpr (Or.inl he))
    · simp only [hlt, if_false]
      obtain ⟨hnd, hsub, hce, hfe, hed, het, hef⟩ := hinv
      refine ⟨⟨hnd, hsub, hce, hfe, hed, het, hef⟩, ?_, fun x hx => hx, fun x hx => hx,
        fun e he => he⟩
      intro t ht
      have hsum : tasks.length ≤ s.completed.length + s.failed.length := by omega
      have h1 : (s.completed ++ s.failed).toFinset.card = (s.completed ++ s.failed).length :=
        List.toFinset_card_of_nodup hnd
      have h2 : (s.completed ++ s.failed).toFinset ⊆ (tasks.map WTask.task_id).toFinset := by
        intro x hx
        rw [List.mem_toFinset] at hx ⊢
        exact hsub x hx
      have h3 : (tasks.map WTask.task_id).toFinset.card = tasks.length := by
        rw [List.toFinset_card_of_nodup huniq, List.length_map]
      have h4 : (tasks.map WTask.task_id).toFinset ⊆ (s.completed ++ s.failed).toFinset := by
        apply Finset.subset_of_eq
        apply (Finset.eq_of_subset_of_card_le h2 ?_).symm
        rw [h1, h3]
        simp only [List.length_append]
        omega
      have hmem : t.task_id ∈ s.completed ++ s.failed := by
        rw [← List.mem_toFinset]
        apply h4
        rw [List.mem_toFinset]
        exact List.mem_map.mpr ⟨t, ht, rfl⟩
      exact List.mem_append.mp hmem

/-- Convenience form of the loop spec for a whole run. -/
theorem runWorkflow_spec (tasks : List WTask) (exec : String → Bool)
    (huniq : (tasks.map WTask.task_id).Nodup) :
    EngInv tasks (runWorkflow tasks exec) ∧
    ∀ t ∈ tasks, t.task_id ∈ (runWorkflow tasks exec).completed ∨
      t.task_id ∈ (runWorkflow tasks exec).failed := by
  have hinv : EngInv tasks ({ completed := [], failed := [], trace := [] } : EngState) := by
    refine ⟨?_, ?_, ?_, ?_, ?_, ?_, ?_⟩ <;> simp
  have h := executeWorkflowLoop_spec tasks exec huniq (tasks.length + 1)
    ⟨[], [], []⟩ hinv (by simp)
  exact ⟨h.1, h.2.1⟩

/-- A task one of whose dependencies ends in the failed set is never
executed (its processor is never invoked, hence no subprocess is ever
spawned for it), ends in the failed set itself, and receives the
`Dependency failed` event — regardless of its `optional` flag, which
`_get_ready_tasks` and `_execute_workflow` never read. -/
theorem failed_dependency_blocks_task (tasks : List WTask) (exec : String → Bool)
    (huniq : (tasks.map WTask.task_id).Nodup) (b : WTask) (hb : b ∈ tasks)
    (a : String) (ha : a ∈ b.depends_on)
    (hafail : a ∈ (runWorkflow tasks exec).failed) :
    b.task_id ∈ (runWorkflow tasks exec).failed ∧
    WfEvent.depFailed b.task_id ∈ (runWorkflow tasks exec).trace ∧
    WfEvent.executed b.task_id true ∉ (runWorkflow tasks exec).trace ∧
    WfEvent.executed b.task_id false ∉ (runWorkflow tasks exec).trace := by
  obtain ⟨hInv, hSettle⟩ := runWorkflow_spec tasks exec huniq
  obtain ⟨hnd, hsub, hce, hfe, hed, het, hef⟩ := hInv
  have hdisj := List.disjoint_of_nodup_append hnd
  have hnoexec : ∀ ok, WfEvent.executed b.task_id ok ∉ (runWorkflow tasks exec).trace := by
    intro ok hev
    exact hdisj (hed b.task_id ok hev b hb rfl a ha) hafail
  have hbf : b.task_id ∈ (runWorkflow tasks exec).failed := by
    rcases hSettle b hb with hc | hf
    · exact absurd (hce _ hc) (hnoexec true)
    · exact hf
  have hdf : WfEvent.depFailed b.task_id ∈ (runWorkflow tasks exec).trace := by
    rcases hfe _ hbf with h | h
    · exact absurd h (hnoexec false)
    · exact h
  exact ⟨hbf, hdf, hnoexec true, hnoexec false⟩

/-- C2: in every run (without stop request) of a workflow with unique
task ids, if a non-optional task `b` depends on a task `a` whose
execution failed, then `b` ends in status failed, the `task_failed`
event for `b` carries reason `Dependency failed`, and `b` is never
handed to `_execute_task` — no subprocess is ever spawned for it. -/
theorem dependency_failure_propagates (tasks : List WTask) (exec : String → Bool)
    (huniq : (tasks.map WTask.task_id).Nodup) (b : WTask) (hb : b ∈ tasks)
    (a : String) (ha : a ∈ b.depends_on) (hopt : b.optional = false)
    (hexec : WfEvent.executed a false ∈ (runWorkflow tasks exec).trace) :
    b.task_id ∈ (runWorkflow tasks exec).failed ∧
    WfEvent.depFailed b.task_id ∈ (runWorkflow tasks exec).trace ∧
    WfEvent.executed b.task_id true ∉ (runWorkflow tasks exec).trace ∧
    WfEvent.executed b.task_id false ∉ (runWorkflow tasks exec).trace := by
  have hafail : a ∈ (runWorkflow tasks exec).failed :=
    (runWorkflow_spec tasks exec huniq).1.2.2.2.2.2.2 a hexec
  exact failed_dependency_blocks_task tasks exec huniq b hb a ha hafail

theorem dependency_failure_propagates_witness :
    WfEvent.depFailed "y" ∈
      (runWorkflow [⟨"x", [], 1, false⟩, ⟨"y", ["x"], 1, false⟩] (fun _ => false)).trace :=
  (dependency_failure_propagates [⟨"x", [], 1, false⟩, ⟨"y", ["x"], 1, false⟩]
    (fun _ => false) (by decide) ⟨"y", ["x"], 1, false⟩ (by decide) "x" (by decide)
    rfl (by decide)).2.1

/-- C3 counterexample: tasks `u` (fails), `v` (depends on `u`,
`optional = true`), `w` (depends on `v`).  The claim expects `v` to be
executed once its remaining dependencies complete; instead the run marks
both `v` and `w` failed via the `Dependency failed` path and the trace
shows `v` was never handed to a processor — `optional` is never
consulted by `_get_ready_tasks`. -/
theorem optional_task_poisoned_counterexample :
    (runWorkflow [⟨"u", [], 1, false⟩, ⟨"v", ["u"], 1, true⟩, ⟨"w", ["v"], 1, false⟩]
        (fun id => id != "u")).failed = ["u", "v", "w"] ∧
    (runWorkflow [⟨"u", [], 1, false⟩, ⟨"v", ["u"], 1, true⟩, ⟨"w", ["v"], 1, false⟩]
        (fun id => id != "u")).trace =
      [WfEvent.executed "u" false, WfEvent.depFailed "v", WfEvent.depFailed "w"] := by
  decide

/-- C3 amended: the `optional` flag has no effect on dependency
poisoning: a task any of whose dependencies ends in the failed set —
optional or not, and whatever the optionality of the failed dependency —
is itself marked failed with reason `Dependency failed` and is never
handed to a processor. -/
theorem optional_flag_does_not_bypass_poisoning (tasks : List WTask)
    (exec : String → Bool) (huniq : (tasks.map WTask.task_id).Nodup)
    (b : WTask) (hb : b ∈ tasks) (a : String) (ha : a ∈ b.depends_on)
    (hopt : b.optional = true)
    (hafail : a ∈ (runWorkflow tasks exec).failed) :
    b.task_id ∈ (runWorkflow tasks exec).failed ∧
    WfEvent.depFailed b.task_id ∈ (runWorkflow tasks exec).trace ∧
    WfEvent.executed b.task_id true ∉ (runWorkflow tasks exec).trace ∧
    WfEvent.executed b.task_id false ∉ (runWorkflow tasks exec).trace :=
  failed_dependency_blocks_task tasks exec huniq b hb a ha hafail

theorem optional_flag_does_not_bypass_poisoning_witness :
    "v" ∈ (runWorkflow [⟨"u", [], 1, false⟩, ⟨"v", ["u"], 1, true⟩]
        (fun id => id != "u")).failed :=
  (optional_flag_does_not_bypass_poisoning
    [⟨"u", [], 1, false⟩, ⟨"v", ["u"], 1, true⟩] (fun id => id != "u") (by decide)
    ⟨"v", ["u"], 1, true⟩ (by decide) "u" (by decide) rfl (by decide)).1

/-! ## C7: commutativity of the combine merge -/

theorem alistGet_set_self {α β : Type} [BEq α] [LawfulBEq α]
    (m : List (α × β)) (k : α) (v : β) : alistGet (alistSet m k v) k = some v := by
  induction m with
  | nil => simp [alistSet, alistGet, List.find?]
  | cons p rest ih =>
    obtain ⟨k1, v1⟩ := p
    unfold alistSet
    by_cases h : k1 == k
    · simp only [h, if_true]
      simp only [alistGet, List.find?, h]
      rfl
    · simp only [h, if_false]
      simp only [Bool.not_eq_true] at h
      simp only [alistGet, List.find?, h] at ih ⊢
      exact ih

theorem alistGet_set_ne {α β : Type} [BEq α] [LawfulBEq α]
    (m : List (α × β)) (k key : α) (v : β) (h : k ≠ key) :
    alistGet (alistSet m k v) key = alistGet m key := by
  induction m with
  | nil =>
    have : (k == key) = false := beq_eq_false_iff_ne.mpr h
    simp [alistSet, alistGet, List.find?, this]
  | cons p rest ih =>
    obtain ⟨k1, v1⟩ := p
    unfold alistSet
    by_cases h1 : k1 == k
    · simp only [h1, if_true]
      have hk1 : k1 = k := eq_of_beq h1
      subst hk1
      have : (k1 == key) = false := beq_eq_false_iff_ne.mpr h
      simp [alistGet, List.find?, this]
    · simp only [h1, if_false]
      by_cases h2 : k1 == key
      · simp [alistGet, List.find?, h2]
      · simp only [Bool.not_eq_true] at h1 h2
        simp only [alistGet, List.find?, h1, h2] at ih ⊢
        exact ih

theorem alistGet_append_of_not_key {α β : Type} [BEq α] [LawfulBEq α]
    (A B : List (α × β)) (k : α) (h : k ∉ A.map Prod.fst) :
    alistGet (A ++ B) k = alistGet B k := by
  induction A with
  | nil => simp
  | cons p rest ih =>
    obtain ⟨k1, v1⟩ := p
    simp only [List.map_cons, List.mem_cons] at h
    push_neg at h
    have hne : (k1 == k) = false := beq_eq_false_iff_ne.mpr (Ne.symm h.1)
    simp only [List.cons_append, alistGet, List.find?, hne]
    exact ih h.2

theorem alistSet_append_of_not_key {α β : Type} [BEq α] [LawfulBEq α]
    (A B : List (α × β)) (k : α) (v : β) (h : k ∉ A.map Prod.fst) :
    alistSet (A ++ B) k v = A ++ alistSet B k v := by
  induction A with
  | nil => simp
  | cons p rest ih =>
    obtain ⟨k1, v1⟩ := p
    simp only [List.map_cons, List.mem_cons] at h
    push_neg at h
    have hne : (k1 == k) = false := beq_eq_false_iff_ne.mpr (Ne.symm h.1)
    simp only [List.cons_append, alistSet, hne]
    simp only [Bool.false_eq_true, if_false]
    exact congrArg (fun l => (k1, v1) :: l) (ih h.2)

theorem keys_alistSet_subset {α β : Type} [BEq α] [LawfulBEq α]
    (m : List (α × β)) (k : α) (v : β) :
    ∀ x ∈ (alistSet m k v).map Prod.fst, x ∈ m.map Prod.fst ∨ x = k := by
  induction m with
  | nil => simp [alistSet]
  | cons p rest ih =>
    obtain ⟨k1, v1⟩ := p
    intro x hx
    unfold alistSet at hx
    cases h : (k1 == k) with
    | true =>
      simp only [h, if_true, List.map_cons, List.mem_cons] at hx
      simp only [List.map_cons, List.mem_cons]
      tauto
    | false =>
      simp only [h, Bool.false_eq_true, if_false, List.map_cons, List.mem_cons] at hx
      simp only [List.map_cons, List.mem_cons]
      rcases hx with rfl | hx
      · tauto
      · have h3 := ih x hx
        tauto

/-- Lookup after the fill loop: an existing binding is never overwritten;
a missing one is taken from the new item's fields unless it is the
dedupe key. -/
theorem fillMissingFields_lookup (dk : String) (fields : List (String × Val)) :
    ∀ (acc : List (String × Val)) (key : String),
      alistGet (fillMissingFields dk fields acc) key =
        match alistGet acc key with
        | some v => some v
        | none => if key == dk then none else alistGet fields key := by
  induction fields with
  | nil =>
    intro acc key
    simp only [fillMissingFields, List.foldl_nil]
    cases h : alistGet acc key with
    | some v => rfl
    | none => simp [alistGet, List.find?]
  | cons kv rest ih =>
    intro acc key
    obtain ⟨k, v⟩ := kv
    simp only [fillMissingFields, List.foldl_cons]
    simp only [fillMissingFields] at ih
    by_cases h1 : (alistHasKey acc k || (k == dk)) = true
    · rw [if_pos h1, ih acc key]
      cases h : alistGet acc key with
      | some w => rfl
      | none =>
        by_cases hk : (key == dk) = true
        · simp [hk]
        · simp only [Bool.not_eq_true] at hk
          simp only [hk, Bool.false_eq_true, if_false]
          have hkkey : (k == key) = false := by
            by_contra hcon
            simp only [Bool.not_eq_false] at hcon
            have hkk : k = key := eq_of_beq hcon
            subst hkk
            simp only [Bool.or_eq_true] at h1
            rcases h1 with h2 | h2
            · obtain ⟨w, hw⟩ := (alistHasKey_iff_get acc k).mp h2
              rw [hw] at h
              exact Option.noConfusion h
            · rw [h2] at hk
              exact Bool.noConfusion hk
          simp [alistGet, List.find?, hkkey]
    · rw [if_neg h1, ih _ key]
      simp only [Bool.or_eq_true, not_or, Bool.not_eq_true] at h1
      obtain ⟨hhk, hkdk⟩ := h1
      by_cases hkey : k = key
      · subst hkey
        rw [alistGet_set_self]
        have hnone : alistGet acc k = none := by
          cases hg : alistGet acc k with
          | none => rfl
          | some w =>
            have : alistHasKey acc k = true := (alistHasKey_iff_get acc k).mpr ⟨w, hg⟩
            rw [this] at hhk
            exact Bool.noConfusion hhk
        rw [hnone]
        simp only [hkdk, Bool.false_eq_true, if_false]
        simp [alistGet, List.find?]
      · rw [alistGet_set_ne acc k key v hkey]
        cases h : alistGet acc key with
        | some w => rfl
        | none =>
          by_cases hk2 : (key == dk) = true
          · simp [hk2]
          · simp only [Bool.not_eq_true] at hk2
            simp only [hk2, Bool.false_eq_true, if_false]
            have hkkey : (k == key) = false := beq_eq_false_iff_ne.mpr hkey
            simp [alistGet, List.find?, hkkey]

theorem pySetUnion_mem (a b v : Val) :
    v ∈ pySetUnion a b ↔ v ∈ setElems a ∨ v ∈ setElems b := by
  simp [pySetUnion]

theorem unionFieldStep_get_ne (fld : String) (rec fields : List (String × Val))
    (key : String) (h : fld ≠ key) :
    alistGet (unionFieldStep fld rec fields) key = alistGet rec key := by
  unfold unionFieldStep
  cases h1 : alistGet rec fld <;> cases h2 : alistGet fields fld <;>
    simp [alistGet_set_ne _ _ _ _ h]

theorem unionFieldStep_get_self (fld : String) (rec fields : List (String × Val)) :
    alistGet (unionFieldStep fld rec fields) fld =
      match alistGet rec fld, alistGet fields fld with
      | some rv, some iv => some (Val.vlist (pySetUnion rv iv))
      | some rv, none => some rv
      | none, _ => none := by
  unfold unionFieldStep
  cases h1 : alistGet rec fld <;> cases h2 : alistGet fields fld <;>
    simp [h1, h2, alistGet_set_self]

/-- Lookup of the `ips`/`asns` field after a whole `combine` collision
update. -/
theorem combineRecord_get (dk : String) (i1 i2 : List (String × Val))
    (fld : String) (hfld : fld = "ips" ∨ fld = "asns") :
    alistGet (combineRecord dk i1 i2) fld =
      match alistGet i1 fld, alistGet i2 fld with
      | some rv, some iv => some (Val.vlist (pySetUnion rv iv))
      | some rv, none => some rv
      | none, some _ => if (fld == dk) = true then none else alistGet i2 fld
      | none, none => none := by
  rcases hfld with rfl | rfl
  · unfold combineRecord
    rw [fillMissingFields_lookup]
    rw [unionFieldStep_get_ne "asns" _ i2 "ips" (by decide)]
    rw [unionFieldStep_get_self "ips" i1 i2]
    cases h1 : alistGet i1 "ips" <;> cases h2 : alistGet i2 "ips"
    · simp [h2]
    · simp
    · simp [h2]
    · simp
  · unfold combineRecord
    rw [fillMissingFields_lookup]
    rw [unionFieldStep_get_self "asns" _ i2]
    rw [unionFieldStep_get_ne "ips" i1 i2 "asns" (by decide)]
    cases h1 : alistGet i1 "asns" <;> cases h2 : alistGet i2 "asns"
    · simp [h2]
    · simp
    · simp [h2]
    · simp

/-- Membership in the `ips`/`asns` elements of a combined record is
exactly membership in either item's elements (treating a scalar as a
singleton and an absent field as empty). -/
theorem combineRecord_fieldElems (dk : String) (i1 i2 : List (String × Val))
    (fld : String) (hfld : fld = "ips" ∨ fld = "asns")
    (hdk : fld = dk → (alistGet i1 fld).isSome) :
    ∀ v, v ∈ fieldElems fld (combineRecord dk i1 i2) ↔
      v ∈ fieldElems fld i1 ∨ v ∈ fieldElems fld i2 := by
  intro v
  unfold fieldElems
  rw [combineRecord_get dk i1 i2 fld hfld]
  cases h1 : alistGet i1 fld <;> cases h2 : alistGet i2 fld
  · simp
  · have hne : (fld == dk) = false := by
      by_contra hcon
      simp only [Bool.not_eq_false] at hcon
      have := hdk (eq_of_beq hcon)
      rw [h1] at this
      exact Bool.noConfusion this
    simp [hne, h2]
  · simp
  · simp [setElems, pySetUnion_mem]

theorem mem_mergeKeys_iff (dk : String) (items : List Val) (x : Val) :
    x ∈ mergeKeys dk (Val.vlist items) ↔
      ∃ it ∈ items, ∃ fields, it = Val.vdict fields ∧
        alistGet fields dk = some x ∧ x.truthy = true := by
  unfold mergeKeys
  rw [List.mem_filterMap]
  constructor
  · rintro ⟨it, hit, hf⟩
    cases it with
    | vdict fields =>
      cases hk : alistGet fields dk with
      | none => simp [hk] at hf
      | some k =>
        cases htr : k.truthy with
        | false => simp [hk, htr] at hf
        | true =>
          simp only [hk, htr, if_true] at hf
          obtain rfl : k = x := by simpa using hf
          exact ⟨Val.vdict fields, hit, fields, rfl, hk, htr⟩
    | vnull => exact Option.noConfusion hf
    | vbool b => exact Option.noConfusion hf
    | vnum n => exact Option.noConfusion hf
    | vstr s => exact Option.noConfusion hf
    | vlist l => exact Option.noConfusion hf
  · rintro ⟨it, hit, fields, rfl, hk, htr⟩
    refine ⟨Val.vdict fields, hit, ?_⟩
    simp [hk, htr]

theorem processMergeItem_keys (dk sid : String)
    (m : List (Val × List (String × Val))) (item : Val) :
    ∀ x ∈ (processMergeItem dk "combine" sid m item).map Prod.fst,
      x ∈ m.map Prod.fst ∨ ∃ fields, item = Val.vdict fields ∧
        alistGet fields dk = some x ∧ x.truthy = true := by
  intro x hx
  unfold processMergeItem at hx
  cases item with
  | vdict fields =>
    cases hk : alistGet fields dk with
    | none =>
      simp only [hk] at hx
      exact Or.inl hx
    | some keyv =>
      cases htr : keyv.truthy with
      | false =>
        simp only [hk, htr, Bool.false_eq_true, if_false] at hx
        exact Or.inl hx
      | true =>
        simp only [hk, htr, if_true, beq_self_eq_true] at hx
        cases hm : alistGet m keyv with
        | some rec =>
          simp only [hm] at hx
          rcases keys_alistSet_subset m keyv (combineRecord dk rec fields) x hx with h | rfl
          · exact Or.inl h
          · exact Or.inr ⟨fields, rfl, hk, htr⟩
        | none =>
          simp only [hm] at hx
          rcases keys_alistSet_subset m keyv fields x hx with h | rfl
          · exact Or.inl h
          · exact Or.inr ⟨fields, rfl, hk, htr⟩
  | vnull => exact Or.inl hx
  | vbool b => exact Or.inl hx
  | vnum n => exact Or.inl hx
  | vstr s => exact Or.inl hx
  | vlist l => exact Or.inl hx

theorem processMergeItem_append (dk sid : String)
    (A B : List (Val × List (String × Val))) (item : Val)
    (h : ∀ fields x, item = Val.vdict fields → alistGet fields dk = some x →
      x.truthy = true → x ∉ A.map Prod.fst) :
    processMergeItem dk "combine" sid (A ++ B) item =
      A ++ processMergeItem dk "combine" sid B item := by
  unfold processMergeItem
  cases item with
  | vdict fields =>
    cases hk : alistGet fields dk with
    | none => simp [hk]
    | some keyv =>
      cases htr : keyv.truthy with
      | false => simp [hk, htr]
      | true =>
        simp only [hk, htr, if_true, beq_self_eq_true]
        have hnotA : keyv ∉ A.map Prod.fst := h fields keyv rfl hk htr
        rw [alistGet_append_of_not_key A B keyv hnotA]
        cases hm : alistGet B keyv with
        | some rec =>
          simp only [hm]
          rw [alistSet_append_of_not_key A B keyv _ hnotA]
        | none =>
          simp only [hm]
          rw [alistSet_append_of_not_key A B keyv _ hnotA]
  | vnull => rfl
  | vbool b => rfl
  | vnum n => rfl
  | vstr s => rfl
  | vlist l => rfl

theorem processMergeList_append (dk sid : String) (items : List Val) :
    ∀ (A B : List (Val × List (String × Val))),
      (∀ it ∈ items, ∀ fields x, it = Val.vdict fields → alistGet fields dk = some x →
        x.truthy = true → x ∉ A.map Prod.fst) →
      items.foldl (processMergeItem dk "combine" sid) (A ++ B) =
        A ++ items.foldl (processMergeItem dk "combine" sid) B := by
  induction items with
  | nil => intro A B _; simp
  | cons item rest ih =>
    intro A B h
    simp only [List.foldl_cons]
    rw [processMergeItem_append dk sid A B item (fun fields x => h item (by simp) fields x)]
    exact ih A _ (fun it hit => h it (by simp [hit]))

theorem processMergeList_keys (dk sid : String) (items : List Val) :
    ∀ (A : List (Val × List (String × Val))) (x : Val),
      x ∈ (items.foldl (processMergeItem dk "combine" sid) A).map Prod.fst →
      x ∈ A.map Prod.fst ∨ x ∈ mergeKeys dk (Val.vlist items) := by
  induction items with
  | nil => intro A x hx; exact Or.inl hx
  | cons item rest ih =>
    intro A x hx
    simp only [List.foldl_cons] at hx
    rcases ih _ x hx with h | h
    · rcases processMergeItem_keys dk sid A item x h with h2 | ⟨fields, rfl, hk, htr⟩
      · exact Or.inl h2
      · right
        rw [mem_mergeKeys_iff]
        exact ⟨Val.vdict fields, by simp, fields, rfl, hk, htr⟩
    · right
      rw [mem_mergeKeys_iff] at h ⊢
      obtain ⟨it, hit, fields, hdict, hk, htr⟩ := h
      exact ⟨it, by simp [hit], fields, hdict, hk, htr⟩

theorem processMergeSource_shift (dk : String) (A : List (Val × List (String × Val)))
    (src : String × Val)
    (h : ∀ k, k ∈ mergeKeys dk src.2 → k ∉ A.map Prod.fst) :
    processMergeSource dk "combine" A src =
      A ++ processMergeSource dk "combine" [] src := by
  unfold processMergeSource
  cases hsrc : src.2 with
  | vlist items =>
    have h2 : ∀ it ∈ items, ∀ fields x, it = Val.vdict fields →
        alistGet fields dk = some x → x.truthy = true → x ∉ A.map Prod.fst := by
      intro it hit fields x hdict hk htr
      apply h
      rw [hsrc, mem_mergeKeys_iff]
      exact ⟨it, hit, fields, hdict, hk, htr⟩
    have h3 := processMergeList_append dk src.1 items A [] h2
    rw [List.append_nil] at h3
    exact h3
  | vnull => simp
  | vbool b => simp
  | vnum n => simp
  | vstr s2 => simp
  | vdict d => simp

theorem processMergeSource_keys (dk : String) (src : String × Val) (x : Val)
    (hx : x ∈ (processMergeSource dk "combine" [] src).map Prod.fst) :
    x ∈ mergeKeys dk src.2 := by
  unfold processMergeSource at hx
  cases hsrc : src.2 with
  | vlist items =>
    rw [hsrc] at hx
    rcases processMergeList_keys dk src.1 items [] x hx with h | h
    · simp at h
    · exact h
  | vnull => rw [hsrc] at hx; simp at hx
  | vbool b => rw [hsrc] at hx; simp at hx
  | vnum n => rw [hsrc] at hx; simp at hx
  | vstr s2 => rw [hsrc] at hx; simp at hx
  | vdict d => rw [hsrc] at hx; simp at hx

theorem mergeData_two_sources_perm (dk : String) (s1 s2 : String × Val)
    (hdisj : ∀ k, k ∈ mergeKeys dk s1.2 → k ∉ mergeKeys dk s2.2) :
    (mergeData [s1, s2] dk "combine").Perm (mergeData [s2, s1] dk "combine") := by
  unfold mergeData
  simp only [List.foldl_cons, List.foldl_nil]
  have h12 : processMergeSource dk "combine" (processMergeSource dk "combine" [] s1) s2 =
      processMergeSource dk "combine" [] s1 ++ processMergeSource dk "combine" [] s2 := by
    apply processMergeSource_shift
    intro k hk2 hk1
    exact hdisj k (processMergeSource_keys dk s1 k hk1) hk2
  have h21 : processMergeSource dk "combine" (processMergeSource dk "combine" [] s2) s1 =
      processMergeSource dk "combine" [] s2 ++ processMergeSource dk "combine" [] s1 := by
    apply processMergeSource_shift
    intro k hk1 hk2
    exact hdisj k hk1 (processMergeSource_keys dk s2 k hk2)
  rw [h12, h21]
  simp only [List.map_append]
  exact List.perm_append_comm

theorem mergeData_singleton_collision (dk id1 id2 : String)
    (i1 i2 : List (String × Val)) (k : Val)
    (h1 : alistGet i1 dk = some k) (h2 : alistGet i2 dk = some k)
    (htr : k.truthy = true) :
    mergeData [(id1, Val.vlist [Val.vdict i1]), (id2, Val.vlist [Val.vdict i2])]
      dk "combine" = [combineRecord dk i1 i2] := by
  have step1 : processMergeItem dk "combine" id1 [] (Val.vdict i1) = [(k, i1)] := by
    unfold processMergeItem
    dsimp only
    simp only [h1, htr, if_true, beq_self_eq_true]
    simp [alistGet, alistSet, List.find?]
  have step2 : processMergeItem dk "combine" id2 [(k, i1)] (Val.vdict i2) =
      [(k, combineRecord dk i1 i2)] := by
    unfold processMergeItem
    dsimp only
    simp only [h2, htr, if_true, beq_self_eq_true]
    have hget : alistGet [(k, i1)] k = some i1 := by simp [alistGet, List.find?]
    rw [hget]
    simp [alistSet]
  unfold mergeData
  have hfold : List.foldl (processMergeSource dk "combine") []
      [(id1, Val.vlist [Val.vdict i1]), (id2, Val.vlist [Val.vdict i2])] =
      [(k, combineRecord dk i1 i2)] := by
    simp only [List.foldl_cons, List.foldl_nil]
    unfold processMergeSource
    dsimp only
    simp only [List.foldl_cons, List.foldl_nil]
    rw [step1, step2]
  rw [hfold]
  rfl

/-- C7: for the `combine` merge strategy.  (a) For two sources whose
participating dedupe-key values are pairwise distinct across sources,
exchanging the order of the two sources permutes the merged record
list, i.e. yields the same set of merged records.  (b) For two items
colliding on the dedupe key, the resulting `ips` and `asns` fields hold
exactly the set union of both items' values (a scalar counting as a
singleton, an absent field as empty), whichever source comes first.
The hashability hypotheses restrict the statement to inputs on which the
Python dict operations do not raise `TypeError`. -/
theorem merge_combine_commutative :
    (∀ (s1 s2 : String × Val) (dk : String),
      (∀ k, k ∈ mergeKeys dk s1.2 → k ∉ mergeKeys dk s2.2) →
      (∀ k ∈ mergeKeys dk s1.2 ++ mergeKeys dk s2.2, k.isHashable = true) →
      (mergeData [s1, s2] dk "combine").Perm (mergeData [s2, s1] dk "combine")) ∧
    (∀ (id1 id2 : String) (i1 i2 : List (String × Val)) (dk : String) (k : Val),
      alistGet i1 dk = some k → alistGet i2 dk = some k →
      k.truthy = true → k.isHashable = true →
      mergeData [(id1, Val.vlist [Val.vdict i1]), (id2, Val.vlist [Val.vdict i2])]
          dk "combine" = [combineRecord dk i1 i2] ∧
      mergeData [(id2, Val.vlist [Val.vdict i2]), (id1, Val.vlist [Val.vdict i1])]
          dk "combine" = [combineRecord dk i2 i1] ∧
      (∀ v, v ∈ fieldElems "ips" (combineRecord dk i1 i2) ↔
          v ∈ fieldElems "ips" i1 ∨ v ∈ fieldElems "ips" i2) ∧
      (∀ v, v ∈ fieldElems "ips" (combineRecord dk i2 i1) ↔
          v ∈ fieldElems "ips" i1 ∨ v ∈ fieldElems "ips" i2) ∧
      (∀ v, v ∈ fieldElems "asns" (combineRecord dk i1 i2) ↔
          v ∈ fieldElems "asns" i1 ∨ v ∈ fieldElems "asns" i2) ∧
      (∀ v, v ∈ fieldElems "asns" (combineRecord dk i2 i1) ↔
          v ∈ fieldElems "asns" i1 ∨ v ∈ fieldElems "asns" i2)) := by
  constructor
  · intro s1 s2 dk hdisj _
    exact mergeData_two_sources_perm dk s1 s2 hdisj
  · intro id1 id2 i1 i2 dk k h1 h2 htr _
    refine ⟨mergeData_singleton_collision dk id1 id2 i1 i2 k h1 h2 htr,
      mergeData_singleton_collision dk id2 id1 i2 i1 k h2 h1 htr, ?_, ?_, ?_, ?_⟩
    · exact combineRecord_fieldElems dk i1 i2 "ips" (Or.inl rfl)
        (fun hdk => by rw [← hdk] at h1; rw [h1]; rfl)
    · intro v
      rw [combineRecord_fieldElems dk i2 i1 "ips" (Or.inl rfl)
        (fun hdk => by rw [← hdk] at h2; rw [h2]; rfl) v]
      tauto
    · exact combineRecord_fieldElems dk i1 i2 "asns" (Or.inr rfl)
        (fun hdk => by rw [← hdk] at h1; rw [h1]; rfl)
    · intro v
      rw [combineRecord_fieldElems dk i2 i1 "asns" (Or.inr rfl)
        (fun hdk => by rw [← hdk] at h2; rw [h2]; rfl) v]
      tauto

theorem merge_combine_commutative_witness :
    (mergeData [("t1", Val.vlist [Val.vdict [("name", Val.vstr "a"),
        ("ips", Val.vlist [Val.vstr "1.1.1.1"])]]),
      ("t2", Val.vlist [Val.vdict [("name", Val.vstr "b"),
        ("ips", Val.vlist [Val.vstr "2.2.2.2"])]])] "name" "combine").Perm
      (mergeData [("t2", Val.vlist [Val.vdict [("name", Val.vstr "b"),
        ("ips", Val.vlist [Val.vstr "2.2.2.2"])]]),
      ("t1", Val.vlist [Val.vdict [("name", Val.vstr "a"),
        ("ips", Val.vlist [Val.vstr "1.1.1.1"])]])] "name" "combine") ∧
    (Val.vstr "2.2.2.2" ∈ fieldElems "ips" (combineRecord "name"
        [("name", Val.vstr "a"), ("ips", Val.vlist [Val.vstr "1.1.1.1"])]
        [("name", Val.vstr "a"), ("ips", Val.vlist [Val.vstr "2.2.2.2"])])) := by
  constructor
  · exact merge_combine_commutative.1
      ("t1", Val.vlist [Val.vdict [("name", Val.vstr "a"),
        ("ips", Val.vlist [Val.vstr "1.1.1.1"])]])
      ("t2", Val.vlist [Val.vdict [("name", Val.vstr "b"),
        ("ips", Val.vlist [Val.vstr "2.2.2.2"])]])
      "name" (by decide) (by decide)
  · exact ((merge_combine_commutative.2 "t1" "t2"
      [("name", Val.vstr "a"), ("ips", Val.vlist [Val.vstr "1.1.1.1"])]
      [("name", Val.vstr "a"), ("ips", Val.vlist [Val.vstr "2.2.2.2"])]
      "name" (Val.vstr "a") (by decide) (by decide) (by decide)
      (by decide)).2.2.1 (Val.vstr "2.2.2.2")).mpr (Or.inr (by decide))

/-! ## C4: the circular-dependency validator -/

theorem univList_cons (t : WTask) (ts : List WTask) :
    univList (t :: ts) = t.task_id :: t.depends_on ++ univList ts := rfl

theorem mem_univList_of_task {tasks : List WTask} {t : WTask} (h : t ∈ tasks) :
    t.task_id ∈ univList tasks ∧ ∀ d ∈ t.depends_on, d ∈ univList tasks := by
  induction tasks with
  | nil => simp at h
  | cons u ts ih =>
    rw [univList_cons]
    rcases List.mem_cons.mp h with rfl | h
    · exact ⟨by simp, fun d hd => by simp [hd]⟩
    · obtain ⟨h1, h2⟩ := ih h
      exact ⟨by simp [h1], fun d hd => by simp [h2 d hd]⟩

theorem buildDeps_get_aux (tasks : List WTask) :
    ∀ (d0 : List (String × List String)) (x : String) (l : List String),
      alistGet (tasks.foldl (fun d t => alistSet d t.task_id t.depends_on) d0) x = some l →
      alistGet d0 x = some l ∨ ∃ t ∈ tasks, t.task_id = x ∧ t.depends_on = l := by
  induction tasks with
  | nil => intro d0 x l h; exact Or.inl h
  | cons t ts ih =>
    intro d0 x l h
    simp only [List.foldl_cons] at h
    rcases ih _ x l h with h1 | ⟨u, hu, h2, h3⟩
    · by_cases hx : t.task_id = x
      · subst hx
        rw [alistGet_set_self] at h1
        obtain rfl : t.depends_on = l := Option.some.injEq .. ▸ h1
        exact Or.inr ⟨t, by simp, rfl, rfl⟩
      · rw [alistGet_set_ne _ _ _ _ hx] at h1
        exact Or.inl h1
    · exact Or.inr ⟨u, by simp [hu], h2, h3⟩

theorem buildDeps_get {tasks : List WTask} {x : String} {l : List String}
    (h : alistGet (buildDeps tasks) x = some l) :
    ∃ t ∈ tasks, t.task_id = x ∧ t.depends_on = l := by
  rcases buildDeps_get_aux tasks [] x l h with h1 | h1
  · simp [alistGet, List.find?] at h1
  · exact h1

theorem depsGetD_target_univ {tasks : List WTask} {x y : String}
    (h : y ∈ depsGetD (buildDeps tasks) x) : y ∈ univList tasks := by
  unfold depsGetD at h
  cases hg : alistGet (buildDeps tasks) x with
  | none => rw [hg] at h; simp at h
  | some l =>
    rw [hg] at h
    obtain ⟨t, ht, _, rfl⟩ := buildDeps_get hg
    exact (mem_univList_of_task ht).2 y h

theorem depsGetD_source_is_task {tasks : List WTask} {x y : String}
    (h : y ∈ depsGetD (buildDeps tasks) x) :
    ∃ t ∈ tasks, t.task_id = x := by
  unfold depsGetD at h
  cases hg : alistGet (buildDeps tasks) x with
  | none => rw [hg] at h; simp at h
  | some l =>
    obtain ⟨t, ht, h2, _⟩ := buildDeps_get hg
    exact ⟨t, ht, h2⟩

theorem dfsMeasure_le_of_subset (univ V W : List String)
    (h : ∀ x ∈ V, x ∈ W) : dfsMeasure univ W ≤ dfsMeasure univ V := by
  apply Finset.card_le_card
  intro x hx
  rw [Finset.mem_sdiff] at hx ⊢
  refine ⟨hx.1, fun hc => hx.2 ?_⟩
  rw [List.mem_toFinset] at hc ⊢
  exact h x hc

theorem dfsMeasure_lt_cons (univ V : List String) (t : String)
    (ht : t ∈ univ) (htV : t ∉ V) :
    dfsMeasure univ (t :: V) < dfsMeasure univ V := by
  apply Finset.card_lt_card
  constructor
  · intro x hx
    rw [Finset.mem_sdiff] at hx ⊢
    refine ⟨hx.1, fun hc => hx.2 ?_⟩
    rw [List.mem_toFinset] at hc ⊢
    exact List.mem_cons_of_mem t hc
  · intro hsub
    have ht' : t ∈ univ.toFinset \ V.toFinset := by
      rw [Finset.mem_sdiff, List.mem_toFinset, List.mem_toFinset]
      exact ⟨ht, htV⟩
    have := hsub ht'
    rw [Finset.mem_sdiff, List.mem_toFinset] at this
    exact this.2 (by simp)

theorem dfsMeasure_le_length (univ V : List String) :
    dfsMeasure univ V ≤ univ.length := by
  calc dfsMeasure univ V ≤ univ.toFinset.card :=
        Finset.card_le_card (Finset.sdiff_subset)
    _ ≤ univ.length := List.toFinset_card_le univ

theorem dfsDepsLoop_grows
    (recNode : String → List String → List String →
      Option (Bool × List String × List String))
    (hrec : ∀ d V R b V1 R1, recNode d V R = some (b, V1, R1) → ∀ x ∈ V, x ∈ V1) :
    ∀ (ds V R : List String) (b : Bool) (V1 R1 : List String),
      dfsDepsLoop recNode ds V R = some (b, V1, R1) → ∀ x ∈ V, x ∈ V1 := by
  intro ds
  induction ds with
  | nil =>
    intro V R b V1 R1 h x hx
    unfold dfsDepsLoop at h
    obtain ⟨rfl, rfl, rfl⟩ : b = false ∧ V = V1 ∧ R = R1 := by
      injection h with h1
      injection h1 with hb hvr
      injection hvr with hv hr
      exact ⟨hb.symm, hv, hr⟩
    exact hx
  | cons d ds ih =>
    intro V R b V1 R1 h x hx
    unfold dfsDepsLoop at h
    by_cases hv : V.contains d = true
    · rw [if_pos hv] at h
      by_cases hr : R.contains d = true
      · rw [if_pos hr] at h
        obtain ⟨_, rfl, _⟩ : true = b ∧ V = V1 ∧ R = R1 := by
          injection h with h1
          injection h1 with hb hvr
          injection hvr with hv2 hr2
          exact ⟨hb, hv2, hr2⟩
        exact hx
      · rw [if_neg hr] at h
        exact ih V R b V1 R1 h x hx
    · rw [if_neg hv] at h
      cases hn : recNode d V R with
      | none => rw [hn] at h; exact Option.noConfusion h
      | some res =>
        obtain ⟨b1, v1, r1⟩ := res
        rw [hn] at h
        cases b1 with
        | true =>
          obtain ⟨_, rfl, _⟩ : true = b ∧ v1 = V1 ∧ r1 = R1 := by
            injection h with h1
            injection h1 with hb hvr
            injection hvr with hv2 hr2
            exact ⟨hb, hv2, hr2⟩
          exact hrec d V R true v1 r1 hn x hx
        | false =>
          exact ih v1 r1 b V1 R1 h x (hrec d V R false v1 r1 hn x hx)

theorem dfsNode_grows (deps : List (String × List String)) :
    ∀ (fuel : Nat) (t : String) (V R : List String) (b : Bool) (V1 R1 : List String),
      hasCircularDependency deps fuel t V R = some (b, V1, R1) → ∀ x ∈ V, x ∈ V1 := by
  intro fuel
  induction fuel with
  | zero => intro t V R b V1 R1 h; exact Option.noConfusion h
  | succ fuel ih =>
    intro t V R b V1 R1 h x hx
    unfold hasCircularDependency at h
    cases hl : dfsDepsLoop (hasCircularDependency deps fuel) (depsGetD deps t)
        (t :: V) (t :: R) with
    | none => rw [hl] at h; exact Option.noConfusion h
    | some res =>
      obtain ⟨b1, v1, r1⟩ := res
      rw [hl] at h
      have hgrow := dfsDepsLoop_grows (hasCircularDependency deps fuel)
        (fun d V' R' b' V1' R1' hn => ih d V' R' b' V1' R1' hn)
        (depsGetD deps t) (t :: V) (t :: R) b1 v1 r1 hl x (List.mem_cons_of_mem t hx)
      cases b1 with
      | true =>
        obtain ⟨rfl, _⟩ : v1 = V1 ∧ r1 = R1 := by
          injection h with h1
          injection h1 with hb hvr
          injection hvr with hv2 hr2
          exact ⟨hv2, hr2⟩
        exact hgrow
      | false =>
        obtain ⟨rfl, _⟩ : v1 = V1 ∧ r1.erase t = R1 := by
          injection h with h1
          injection h1 with hb hvr
          injection hvr with hv2 hr2
          exact ⟨hv2, hr2⟩
        exact hgrow

theorem dfsDepsLoop_total (univ : List String)
    (recNode : String → List String → List String →
      Option (Bool × List String × List String)) (fuel : Nat)
    (hrecTot : ∀ d V R, d ∈ univ → d ∉ V → dfsMeasure univ V < fuel →
      (recNode d V R).isSome)
    (hrecGrow : ∀ d V R b V1 R1, recNode d V R = some (b, V1, R1) → ∀ x ∈ V, x ∈ V1) :
    ∀ (ds V R : List String), (∀ d ∈ ds, d ∈ univ) → dfsMeasure univ V < fuel →
      (dfsDepsLoop recNode ds V R).isSome := by
  intro ds
  induction ds with
  | nil => intro V R _ _; simp [dfsDepsLoop]
  | cons d ds ih =>
    intro V R hds hmu
    unfold dfsDepsLoop
    by_cases hv : V.contains d = true
    · rw [if_pos hv]
      by_cases hr : R.contains d = true
      · rw [if_pos hr]; simp
      · rw [if_neg hr]
        exact ih V R (fun x hx => hds x (by simp [hx])) hmu
    · rw [if_neg hv]
      have hdu : d ∈ univ := hds d (by simp)
      have hdV : d ∉ V := by
        rw [← contains_iff_mem]
        exact hv
      have hsome := hrecTot d V R hdu hdV hmu
      cases hn : recNode d V R with
      | none => rw [hn] at hsome; simp at hsome
      | some res =>
        obtain ⟨b1, v1, r1⟩ := res
        cases b1 with
        | true => simp
        | false =>
          have hgrow := hrecGrow d V R false v1 r1 hn
          have hmu1 : dfsMeasure univ v1 < fuel :=
            lt_of_le_of_lt (dfsMeasure_le_of_subset univ V v1 hgrow) hmu
          exact ih v1 r1 (fun x hx => hds x (by simp [hx])) hmu1

theorem dfsNode_total (deps : List (String × List String)) (univ : List String)
    (hdeps : ∀ t, ∀ d ∈ depsGetD deps t, d ∈ univ) :
    ∀ (fuel : Nat) (t : String) (V R : List String), t ∈ univ → t ∉ V →
      dfsMeasure univ V < fuel → (hasCircularDependency deps fuel t V R).isSome := by
  intro fuel
  induction fuel with
  | zero => intro t V R _ _ h; exact absurd h (Nat.not_lt_zero _)
  | succ fuel ih =>
    intro t V R htu htV hmu
    unfold hasCircularDependency
    have hmu1 : dfsMeasure univ (t :: V) < fuel := by
      have h1 := dfsMeasure_lt_cons univ V t htu htV
      omega
    have hloop := dfsDepsLoop_total univ (hasCircularDependency deps fuel) fuel
      (fun d V' R' hdu hdV hmu' => ih d V' R' hdu hdV hmu')
      (fun d V' R' b V1 R1 hn => dfsNode_grows deps fuel d V' R' b V1 R1 hn)
      (depsGetD deps t) (t :: V) (t :: R) (hdeps t) hmu1
    cases hl : dfsDepsLoop (hasCircularDependency deps fuel) (depsGetD deps t)
        (t :: V) (t :: R) with
    | none => rw [hl] at hloop; simp at hloop
    | some res =>
      obtain ⟨b1, v1, r1⟩ := res
      cases b1 <;> simp

theorem validateNoCircularDependencies_total (tasks : List WTask) :
    (validateNoCircularDependencies tasks).isSome := by
  unfold validateNoCircularDependencies
  have hdeps : ∀ t, ∀ d ∈ depsGetD (buildDeps tasks) t, d ∈ univList tasks :=
    fun t d hd => depsGetD_target_univ hd
  have main : ∀ (ts : List WTask) (V R : List String), (∀ t ∈ ts, t ∈ tasks) →
      (checkCircularTasks (buildDeps tasks) (dfsFuel tasks) ts V R).isSome := by
    intro ts
    induction ts with
    | nil => intro V R _; simp [checkCircularTasks]
    | cons t ts ih =>
      intro V R hts
      unfold checkCircularTasks
      by_cases hv : V.contains t.task_id = true
      · rw [if_pos hv]
        exact ih V R (fun u hu => hts u (by simp [hu]))
      · rw [if_neg hv]
        have htu : t.task_id ∈ univList tasks :=
          (mem_univList_of_task (hts t (by simp))).1
        have htV : t.task_id ∉ V := by rw [← contains_iff_mem]; exact hv
        have hmu : dfsMeasure (univList tasks) V < dfsFuel tasks := by
          have := dfsMeasure_le_length (univList tasks) V
          unfold dfsFuel
          omega
        have hsome := dfsNode_total (buildDeps tasks) (univList tasks) hdeps
          (dfsFuel tasks) t.task_id V R htu htV hmu
        cases hn : hasCircularDependency (buildDeps tasks) (dfsFuel tasks)
            t.task_id V R with
        | none => rw [hn] at hsome; simp at hsome
        | some res =>
          obtain ⟨b1, v1, r1⟩ := res
          cases b1 with
          | true => simp
          | false => exact ih v1 r1 (fun u hu => hts u (by simp [hu]))
  exact main tasks [] [] (fun t ht => ht)

theorem ncr_of_edges (deps : List (String × List String)) (t : String)
    (h : ∀ d ∈ depsGetD deps t, NCR deps d) : NCR deps t := by
  intro y hy
  rcases Relation.ReflTransGen.cases_head hy with rfl | ⟨d, hd, hdy⟩
  · intro hcyc
    obtain ⟨c, hc, hct⟩ := Relation.TransGen.head'_iff.mp hcyc
    exact h c hc t hct hcyc
  · exact h d hd y hdy

theorem dfsDepsLoop_safe (deps : List (String × List String))
    (recNode : String → List String → List String →
      Option (Bool × List String × List String))
    (hrec : ∀ d V R V1 R1, recNode d V R = some (false, V1, R1) →
      SafeSet deps V R → (∀ x ∈ R, x ∈ V) → d ∉ R →
      NCR deps d ∧ SafeSet deps V1 R1 ∧ R1 = R ∧ (∀ x ∈ V, x ∈ V1)) :
    ∀ (ds V R V1 R1 : List String),
      dfsDepsLoop recNode ds V R = some (false, V1, R1) →
      SafeSet deps V R → (∀ x ∈ R, x ∈ V) →
      (∀ d ∈ ds, NCR deps d) ∧ SafeSet deps V1 R1 ∧ R1 = R ∧
        (∀ x ∈ V, x ∈ V1) := by
  intro ds
  induction ds with
  | nil =>
    intro V R V1 R1 h hsafe _
    unfold dfsDepsLoop at h
    obtain ⟨rfl, rfl⟩ : V = V1 ∧ R = R1 := by
      injection h with h1
      injection h1 with hb hvr
      injection hvr with hv hr
      exact ⟨hv, hr⟩
    exact ⟨by simp, hsafe, rfl, fun x hx => hx⟩
  | cons d ds ih =>
    intro V R V1 R1 h hsafe hRV
    unfold dfsDepsLoop at h
    by_cases hv : V.contains d = true
    · rw [if_pos hv] at h
      by_cases hr : R.contains d = true
      · rw [if_pos hr] at h
        exfalso
        injection h with h1
        injection h1 with hb
        exact Bool.noConfusion hb
      · rw [if_neg hr] at h
        have hdV : d ∈ V := (contains_iff_mem V d).mp hv
        have hdR : d ∉ R := fun hm => hr ((contains_iff_mem R d).mpr hm)
        obtain ⟨hds, hs1, hr1, hg1⟩ := ih V R V1 R1 h hsafe hRV
        refine ⟨fun x hx => ?_, hs1, hr1, hg1⟩
        rcases List.mem_cons.mp hx with rfl | hx
        · exact hsafe x hdV hdR
        · exact hds x hx
    · rw [if_neg hv] at h
      have hdV : d ∉ V := fun hm => hv ((contains_iff_mem V d).mpr hm)
      have hdR : d ∉ R := fun hm => hdV (hRV d hm)
      cases hn : recNode d V R with
      | none => rw [hn] at h; exact Option.noConfusion h
      | some res =>
        obtain ⟨b1, v1, r1⟩ := res
        rw [hn] at h
        cases b1 with
        | true =>
          exfalso
          injection h with h1
          injection h1 with hb
          exact Bool.noConfusion hb
        | false =>
          obtain ⟨hncr, hs1, hr0, hg1⟩ := hrec d V R v1 r1 hn hsafe hRV hdR
          have hRv1 : ∀ x ∈ r1, x ∈ v1 := fun x hx => hg1 x (hRV x (hr0 ▸ hx))
          obtain ⟨hds, hs2, hr2, hg2⟩ := ih v1 r1 V1 R1 h hs1 hRv1
          refine ⟨fun x hx => ?_, hs2, hr2.trans hr0, fun x hx => hg2 x (hg1 x hx)⟩
          rcases List.mem_cons.mp hx with rfl | hx
          · exact hncr
          · exact hds x hx

theorem dfsNode_safe (deps : List (String × List String)) :
    ∀ (fuel : Nat) (t : String) (V R V1 R1 : List String),
      hasCircularDependency deps fuel t V R = some (false, V1, R1) →
      SafeSet deps V R → (∀ x ∈ R, x ∈ V) → t ∉ R →
      NCR deps t ∧ SafeSet deps V1 R1 ∧ R1 = R ∧ (∀ x ∈ V, x ∈ V1) := by
  intro fuel
  induction fuel with
  | zero => intro t V R V1 R1 h; exact Option.noConfusion h
  | succ fuel ih =>
    intro t V R V1 R1 h hsafe hRV htR
    unfold hasCircularDependency at h
    cases hl : dfsDepsLoop (hasCircularDependency deps fuel) (depsGetD deps t)
        (t :: V) (t :: R) with
    | none => rw [hl] at h; exact Option.noConfusion h
    | some res =>
      obtain ⟨b1, v1, r1⟩ := res
      rw [hl] at h
      cases b1 with
      | true =>
        exfalso
        injection h with h1
        injection h1 with hb
        exact Bool.noConfusion hb
      | false =>
        obtain ⟨rfl, rfl⟩ : v1 = V1 ∧ r1.erase t = R1 := by
          injection h with h1
          injection h1 with hb hvr
          injection hvr with hv hr
          exact ⟨hv, hr⟩
        have hsafe1 : SafeSet deps (t :: V) (t :: R) := by
          intro x hx hxr
          rcases List.mem_cons.mp hx with rfl | hx
          · exact absurd (List.mem_cons_self x R) hxr
          · exact hsafe x hx (fun hm => hxr (List.mem_cons_of_mem t hm))
        have hRV1 : ∀ x ∈ t :: R, x ∈ t :: V := by
          intro x hx
          rcases List.mem_cons.mp hx with rfl | hx
          · exact List.mem_cons_self x V
          · exact List.mem_cons_of_mem t (hRV x hx)
        obtain ⟨hds, hs1, hr1, hg1⟩ := dfsDepsLoop_safe deps
          (hasCircularDependency deps fuel)
          (fun d V' R' V1' R1' hn hs hrv hdr => ih d V' R' V1' R1' hn hs hrv hdr)
          (depsGetD deps t) (t :: V) (t :: R) v1 r1 hl hsafe1 hRV1
        have hncr : NCR deps t := ncr_of_edges deps t hds
        subst hr1
        refine ⟨hncr, ?_, List.erase_cons_head t R, fun x hx => hg1 x (List.mem_cons_of_mem t hx)⟩
        rw [List.erase_cons_head t R]
        intro x hx hxr
        by_cases hxt : x = t
        · exact hxt ▸ hncr
        · exact hs1 x hx (fun hm => by
            rcases List.mem_cons.mp hm with h1 | h1
            · exact hxt h1
            · exact hxr h1)

theorem checkCircularTasks_safe (deps : List (String × List String)) (fuel : Nat) :
    ∀ (ts : List WTask) (V : List String),
      checkCircularTasks deps fuel ts V [] = some false →
      SafeSet deps V [] →
      ∀ t ∈ ts, NCR deps t.task_id := by
  intro ts
  induction ts with
  | nil => intro V _ _ t ht; exact absurd ht (List.not_mem_nil t)
  | cons t ts ih =>
    intro V h hsafe u hu
    unfold checkCircularTasks at h
    by_cases hv : V.contains t.task_id = true
    · rw [if_pos hv] at h
      rcases List.mem_cons.mp hu with rfl | hu
      · exact hsafe u.task_id ((contains_iff_mem V u.task_id).mp hv)
          (List.not_mem_nil u.task_id)
      · exact ih V h hsafe u hu
    · rw [if_neg hv] at h
      cases hn : hasCircularDependency deps fuel t.task_id V [] with
      | none => rw [hn] at h; exact Option.noConfusion h
      | some res =>
        obtain ⟨b1, v1, r1⟩ := res
        rw [hn] at h
        cases b1 with
        | true =>
          exfalso
          injection h with hb
          exact Bool.noConfusion hb
        | false =>
          obtain ⟨hncr, hs1, hr1, _⟩ := dfsNode_safe deps fuel t.task_id V [] v1 r1
            hn hsafe (fun x hx => absurd hx (List.not_mem_nil x))
            (List.not_mem_nil t.task_id)
          subst hr1
          rcases List.mem_cons.mp hu with rfl | hu
          · exact hncr
          · exact ih v1 h hs1 u hu

theorem validate_accept_ncr (tasks : List WTask)
    (h : validateNoCircularDependencies tasks = some false) :
    ∀ t ∈ tasks, NCR (buildDeps tasks) t.task_id := by
  unfold validateNoCircularDependencies at h
  exact checkCircularTasks_safe (buildDeps tasks) (dfsFuel tasks) tasks [] h
    (fun x hx => absurd hx (List.not_mem_nil x))

theorem validate_accept_acyclic (tasks : List WTask)
    (h : validateNoCircularDependencies tasks = some false) :
    DepAcyclic tasks := by
  intro x hcyc
  obtain ⟨y, hy, _⟩ := Relation.TransGen.head'_iff.mp hcyc
  obtain ⟨t, ht, rfl⟩ := depsGetD_source_is_task hy
  exact validate_accept_ncr tasks h t ht t.task_id Relation.ReflTransGen.refl hcyc

/-- C4: `validate_no_circular_dependencies` (schemas.py lines 329-357)
settles every workflow (the DFS never runs out of the fuel the embedding
gives it); whenever it accepts (returns without raising, embedded as
`some false`) the `depends_on` graph is acyclic; and every workflow whose
graph has a cycle is rejected with the
`ValueError("Circular dependency detected involving task ...")`,
embedded as `some true`, so no run is created for it. -/
theorem workflow_validation_rejects_cycles :
    (∀ tasks : List WTask, (validateNoCircularDependencies tasks).isSome) ∧
    (∀ tasks : List WTask,
      validateNoCircularDependencies tasks = some false → DepAcyclic tasks) ∧
    (∀ tasks : List WTask,
      ¬ DepAcyclic tasks → validateNoCircularDependencies tasks = some true) := by
  refine ⟨validateNoCircularDependencies_total, validate_accept_acyclic, ?_⟩
  intro tasks hcyc
  cases hval : validateNoCircularDependencies tasks with
  | none =>
    have := validateNoCircularDependencies_total tasks
    rw [hval] at this
    simp at this
  | some b =>
    cases b with
    | true => rfl
    | false => exact absurd (validate_accept_acyclic tasks hval) hcyc

theorem workflow_validation_rejects_cycles_witness :
    validateNoCircularDependencies [(⟨"a", ["b"], 0, false⟩ : WTask),
      (⟨"b", ["a"], 0, false⟩ : WTask)] = some true := by
  refine workflow_validation_rejects_cycles.2.2 _ (fun hac => ?_)
  have hab : DepEdge [(⟨"a", ["b"], 0, false⟩ : WTask),
      (⟨"b", ["a"], 0, false⟩ : WTask)] "a" "b" := by
    unfold DepEdge EdgeOf
    decide
  have hba : DepEdge [(⟨"a", ["b"], 0, false⟩ : WTask),
      (⟨"b", ["a"], 0, false⟩ : WTask)] "b" "a" := by
    unfold DepEdge EdgeOf
    decide
  exact hac "a" (Relation.TransGen.head hab (Relation.TransGen.single hba))
